import Mathlib

/-!
Shallow embedding of the in-memory record store implemented in
`src/in_memory_db_imp.cpp` (class `InMemoryDBImpl`), together with proofs
about the claims of its specification.

Modelling conventions:
* `std::unordered_map` is modelled as an association list (`List (key × value)`)
  whose order stands for the (unspecified) iteration order of the hash map.
  `m[k] = v` replaces in place when the key is present and otherwise appends;
  `erase` removes the (unique, in a real map) entry with the key.
* `std::chrono::steady_clock::time_point` is modelled as an `Int`, measured in
  seconds (the only granularity the code ever serializes); the current instant
  `now` is passed explicitly to each operation that reads the clock.
* `int` values parsed by `std::stoi` are range-checked against the 32-bit
  `int` range, matching the `std::out_of_range` exception; `static_cast<int>`
  of the 64-bit second count is modelled by wrapping into the same range.
* `std::optional` becomes `Option`, methods returning `bool` plus mutation
  become `Bool × DB`.
-/

set_option autoImplicit false

namespace InMemDB

/-- Field map of one record: `field → value` (`std::unordered_map<std::string, std::string>`). -/
abbrev FieldMap := List (String × String)

/-- Record table: `recordId → field map` (member `records_`). -/
abbrev RecMap := List (String × FieldMap)

/-- TTL table: `recordId → absolute expiration instant` (member `ttlMap_`). -/
abbrev TTLMap := List (String × Int)

/-- The state of `InMemoryDBImpl`: the two co-indexed tables. -/
structure DB where
  records : RecMap
  ttlMap : TTLMap
deriving DecidableEq, Repr

/-- The freshly constructed, empty database. -/
def emptyDB : DB := ⟨[], []⟩

/-! ### Association list primitives (the `unordered_map` operations used) -/

/-- `m.find(k)`: first entry with the given key. -/
def lookupA {β : Type} : List (String × β) → String → Option β
  | [], _ => none
  | (k, v) :: l, a => if k = a then some v else lookupA l a

/-- `m.erase(k)`: drop the entry with the given key (the first, in list form). -/
def eraseA {β : Type} : List (String × β) → String → List (String × β)
  | [], _ => []
  | (k, v) :: l, a => if k = a then l else (k, v) :: eraseA l a

/-- `m[k] = v`: replace in place if present, else append a fresh entry. -/
def insertA {β : Type} : List (String × β) → String → β → List (String × β)
  | [], a, b => [(a, b)]
  | (k, v) :: l, a, b => if k = a then (a, b) :: l else (k, v) :: insertA l a b

/-- `records_[recordId][field] = value`: nested write, default-constructing the
    inner map when the record is absent. -/
def setField : RecMap → String → String → String → RecMap
  | [], rid, f, v => [(rid, [(f, v)])]
  | (k, fm) :: l, rid, f, v =>
    if k = rid then (k, insertA fm f v) :: l else (k, fm) :: setField l rid f v

/-- Keys of an association list, in iteration order. -/
def keysOf {β : Type} (l : List (String × β)) : List String := l.map Prod.fst

/-! ### Helper functions of `InMemoryDBImpl` -/

/-- `InMemoryDBImpl::isRecordExpired`: a record is expired when it has a TTL
    entry whose instant is at or before `now` (`now >= it->second`). -/
def isRecordExpired (db : DB) (recordId : String) (now : Int) : Bool :=
  match lookupA db.ttlMap recordId with
  | none => false
  | some inst => decide (inst ≤ now)

/-- `InMemoryDBImpl::cleanupExpiredRecord`: physically purge one record from
    both tables. -/
def cleanupExpiredRecord (db : DB) (recordId : String) : DB :=
  ⟨eraseA db.records recordId, eraseA db.ttlMap recordId⟩

/-! ### Level 1: basic operations -/

/-- `InMemoryDBImpl::set`. -/
def set (db : DB) (recordId field value : String) (now : Int) : DB :=
  let db1 := if isRecordExpired db recordId now then cleanupExpiredRecord db recordId else db
  ⟨setField db1.records recordId field value, db1.ttlMap⟩

/-- `InMemoryDBImpl::get`. -/
def get (db : DB) (recordId field : String) (now : Int) : Option String :=
  if isRecordExpired db recordId now then none
  else
    match lookupA db.records recordId with
    | none => none
    | some fm => lookupA fm field

/-- `InMemoryDBImpl::deleteField`. -/
def deleteField (db : DB) (recordId field : String) (now : Int) : Bool × DB :=
  if isRecordExpired db recordId now then (false, cleanupExpiredRecord db recordId)
  else
    match lookupA db.records recordId with
    | none => (false, db)
    | some fm =>
      match lookupA fm field with
      | none => (false, db)
      | some _ =>
        let fm1 := eraseA fm field
        if fm1 = [] then (true, ⟨eraseA db.records recordId, eraseA db.ttlMap recordId⟩)
        else (true, ⟨insertA db.records recordId fm1, db.ttlMap⟩)

/-- `InMemoryDBImpl::deleteRecord`. -/
def deleteRecord (db : DB) (recordId : String) : Bool × DB :=
  match lookupA db.records recordId with
  | none => (false, db)
  | some _ => (true, ⟨eraseA db.records recordId, eraseA db.ttlMap recordId⟩)

/-- `std::sort` on a vector of strings (lexicographic, byte-exact: UTF-8 byte
    order coincides with the code-point order used by Lean's `String` order). -/
def sortStrings (l : List String) : List String := l.insertionSort (· ≤ ·)

/-- `InMemoryDBImpl::getFields`. -/
def getFields (db : DB) (recordId : String) (now : Int) : List String :=
  if isRecordExpired db recordId now then []
  else
    match lookupA db.records recordId with
    | none => []
    | some fm => sortStrings (keysOf fm)

/-- `InMemoryDBImpl::hasRecord`. -/
def hasRecord (db : DB) (recordId : String) (now : Int) : Bool :=
  if isRecordExpired db recordId now then false
  else (lookupA db.records recordId).isSome

/-- `InMemoryDBImpl::getAllRecordIds`. -/
def getAllRecordIds (db : DB) (now : Int) : List String :=
  sortStrings (keysOf (db.records.filter fun p => !(isRecordExpired db p.1 now)))

/-! ### Level 2: filtering -/

/-- `InMemoryDBImpl::getRecordsByFieldValue`. -/
def getRecordsByFieldValue (db : DB) (field value : String) (now : Int) : List String :=
  sortStrings (keysOf (db.records.filter fun p =>
    !(isRecordExpired db p.1 now) &&
      (match lookupA p.2 field with
       | some w => w == value
       | none => false)))

/-! ### Level 3: TTL -/

/-- `InMemoryDBImpl::setTTL`: only sets the TTL when the record table has an
    entry; the expiration instant is `now + ttlSeconds`. -/
def setTTL (db : DB) (recordId : String) (ttlSeconds : Int) (now : Int) : DB :=
  match lookupA db.records recordId with
  | none => db
  | some _ => ⟨db.records, insertA db.ttlMap recordId (now + ttlSeconds)⟩

/-- `InMemoryDBImpl::expireRecords`: collect the ids of expired TTL entries,
    then purge each of them; returns the number purged. -/
def expireRecords (db : DB) (now : Int) : Nat × DB :=
  let expiredIds := keysOf (db.ttlMap.filter fun p => decide (p.2 ≤ now))
  (expiredIds.length, expiredIds.foldl cleanupExpiredRecord db)

/-! ### Level 4: backup and restore

The snapshot format is line-oriented; every item is written followed by a
single `"\n"`.  Decimal printing of the counts (`operator<<` on integers) is
modelled by `natToDec`/`intToDec`; `std::getline` is modelled by `strLines`;
`std::stoi` by `stoi`. -/

/-- Character for a single decimal digit `d < 10`. -/
def digitChar (d : Nat) : Char := Char.ofNat (48 + d)

/-- Fuel-driven helper for `natDigits` (structural recursion, so that the
    kernel can evaluate it; `natDigits_eq` below recovers the natural
    recurrence). -/
def natDigitsF : Nat → Nat → List Char
  | 0, n => [digitChar n]
  | f + 1, n => if n < 10 then [digitChar n] else natDigitsF f (n / 10) ++ [digitChar (n % 10)]

/-- Decimal digit string of a natural number, most significant digit first
    (the output of `operator<<` on a non-negative integer). -/
def natDigits (n : Nat) : List Char := natDigitsF n n

/-- Decimal rendering of a natural number. -/
def natToDec (n : Nat) : String := String.mk (natDigits n)

/-- Decimal rendering of an integer (`operator<<` on `int`). -/
def intToDec (i : Int) : String :=
  if i < 0 then String.mk ('-' :: natDigits (-i).toNat) else natToDec i.toNat

/-- `static_cast<int>` applied to a 64-bit second count: wrap into
    `[-2^31, 2^31)`. -/
def intCast (x : Int) : Int := (x + 2147483648) % 4294967296 - 2147483648

/-- Whitespace skipped by `std::stoi` (via `strtol`/`isspace`). -/
def isSpaceC (c : Char) : Bool :=
  c = ' ' || c = '\t' || c = '\n' || c = '\x0b' || c = '\x0c' || c = '\r'

/-- Numeric value of a digit character. -/
def digVal (c : Char) : Nat := c.toNat - 48

/-- Value of a most-significant-first digit list. -/
def decValue (ds : List Char) : Nat := ds.foldl (fun a c => a * 10 + digVal c) 0

/-- Magnitude parsed from the leading digit run; `none` when there is no
    digit (`std::invalid_argument`). -/
def stoiMag (cs : List Char) : Option Nat :=
  let ds := cs.takeWhile Char.isDigit
  if ds.isEmpty then none else some (decValue ds)

/-- `std::stoi` rejects values outside the `int` range
    (`std::out_of_range`). -/
def rangeChk (v : Int) : Option Int :=
  if v < -2147483648 ∨ 2147483647 < v then none else some v

/-- `std::stoi` on a character list: skip whitespace, optional sign, leading
    digit run; trailing garbage is ignored. -/
def stoiChars (cs0 : List Char) : Option Int :=
  match cs0.dropWhile isSpaceC with
  | [] => none
  | c :: rest =>
    if c = '-' then (stoiMag rest).bind fun m => rangeChk (-(m : Int))
    else if c = '+' then (stoiMag rest).bind fun m => rangeChk (m : Int)
    else (stoiMag (c :: rest)).bind fun m => rangeChk (m : Int)

/-- `std::stoi` on a string; `none` models the thrown exception. -/
def stoi (s : String) : Option Int := stoiChars s.data

/-- One pass of `std::getline`: `acc` is the (reversed) current line.  At end
    of input the current line is emitted; after a `'\n'` the line is emitted
    and reading continues only when characters remain. -/
def linesAux : List Char → List Char → List String
  | [], acc => [String.mk acc.reverse]
  | c :: cs, acc =>
    if c = '\n' then
      String.mk acc.reverse :: (if cs.isEmpty then [] else linesAux cs [])
    else linesAux cs (c :: acc)

/-- The sequence of lines `std::getline` yields on a string (`[]` on empty
    input, and no phantom empty line after a trailing newline). -/
def strLines (s : String) : List String :=
  match s.data with
  | [] => []
  | c :: cs => linesAux (c :: cs) []

/-- Field lines of one record: `field, value` pairs in iteration order. -/
def serializeFM (fm : FieldMap) : List String := fm.flatMap fun p => [p.1, p.2]

/-- The record entries `backup` keeps: the logically non-expired ones, in
    iteration order (the loop building `validRecordIds`). -/
def validRecsOf (db : DB) (now : Int) : RecMap :=
  db.records.filter fun p => !(isRecordExpired db p.1 now)

/-- The TTL entries `backup` keeps: for each valid record id in order, its
    TTL entry when the remaining time is strictly positive, with the
    remaining seconds cast to `int`. -/
def validTTLsOf (db : DB) (now : Int) : List (String × Int) :=
  (keysOf (validRecsOf db now)).filterMap fun rid =>
    match lookupA db.ttlMap rid with
    | some inst => if 0 < inst - now then some (rid, intCast (inst - now)) else none
    | none => none

/-- `InMemoryDBImpl::backup`, producing the list of lines.  Mirrors the
    source: collect the non-expired record ids, emit count, id, field count
    and fields per record (`records_.at(recordId)` cannot fail there, hence
    the `getD`), then the TTL entries with strictly positive remaining
    seconds. -/
def backupLines (db : DB) (now : Int) : List String :=
  let validRecordIds := keysOf (validRecsOf db now)
  let recLines := validRecordIds.flatMap fun rid =>
    let fm := (lookupA db.records rid).getD []
    rid :: natToDec fm.length :: serializeFM fm
  natToDec validRecordIds.length :: recLines
    ++ natToDec (validTTLsOf db now).length ::
      (validTTLsOf db now).flatMap fun p => [p.1, intToDec p.2]

/-- `InMemoryDBImpl::backup`: every line is written to the stream followed by
    a single `"\n"`, so the character sequence of the result is the
    concatenation of `line ++ "\n"` over all lines. -/
def backup (db : DB) (now : Int) : String :=
  String.mk ((backupLines db now).flatMap fun s => s.data ++ ['\n'])

/-- Outcome of a parsing phase of `restore`: success with a value, truncated
    input (`std::getline` failed, the method returns `false` leaving `σ` as
    the state built so far), or a `std::stoi` exception (caught, the state is
    cleared). -/
inductive PRes (σ : Type) (α : Type) where
  | ok : α → PRes σ α
  | truncated : σ → PRes σ α
  | badNum : PRes σ α
deriving DecidableEq, Repr

/-- The inner field loop of `restore`: read `field`, `value` pairs and write
    them through `records_[recordId][field] = value`. -/
def parseFields : Nat → List String → RecMap → String → PRes RecMap (RecMap × List String)
  | 0, lines, recs, _ => .ok (recs, lines)
  | _ + 1, [], recs, _ => .truncated recs
  | _ + 1, [_], recs, _ => .truncated recs
  | n + 1, f :: v :: rest, recs, rid => parseFields n rest (setField recs rid f v) rid

/-- The record loop of `restore`: read `recordId`, field count, then the
    fields. -/
def parseRecords : Nat → List String → RecMap → PRes RecMap (RecMap × List String)
  | 0, lines, recs => .ok (recs, lines)
  | _ + 1, [], recs => .truncated recs
  | _ + 1, [_], recs => .truncated recs
  | n + 1, rid :: cnt :: rest, recs =>
    match stoi cnt with
    | none => .badNum
    | some fc =>
      match parseFields fc.toNat rest recs rid with
      | .ok (recs1, rest1) => parseRecords n rest1 recs1
      | .truncated recs1 => .truncated recs1
      | .badNum => .badNum

/-- The TTL loop of `restore`: read `recordId`, remaining seconds, and store
    `now + seconds` (`now` is read once before the loop). -/
def parseTTLs (now : Int) : Nat → List String → TTLMap → PRes TTLMap (TTLMap × List String)
  | 0, lines, ttl => .ok (ttl, lines)
  | _ + 1, [], ttl => .truncated ttl
  | _ + 1, [_], ttl => .truncated ttl
  | n + 1, rid :: sec :: rest, ttl =>
    match stoi sec with
    | none => .badNum
    | some s => parseTTLs now n rest (insertA ttl rid (now + s))

/-- The body of `InMemoryDBImpl::restore` over the line sequence: record
    count, records, TTL count, TTLs; lines after the TTL section are never
    read (returned as the leftover on success). -/
def restoreCore (now : Int) : List String → PRes DB (DB × List String)
  | [] => .truncated emptyDB
  | countLine :: rest =>
    match stoi countLine with
    | none => .badNum
    | some recordCount =>
      match parseRecords recordCount.toNat rest [] with
      | .badNum => .badNum
      | .truncated recs => .truncated ⟨recs, []⟩
      | .ok (recs, rest1) =>
        match rest1 with
        | [] => .truncated ⟨recs, []⟩
        | ttlCountLine :: rest2 =>
          match stoi ttlCountLine with
          | none => .badNum
          | some ttlCount =>
            match parseTTLs now ttlCount.toNat rest2 [] with
            | .badNum => .badNum
            | .truncated ttl => .truncated ⟨recs, ttl⟩
            | .ok (ttl, rest3) => .ok (⟨recs, ttl⟩, rest3)

/-- `InMemoryDBImpl::restore`: the previous state is cleared up front and
    never read again.  A truncation (`!std::getline(...)`) returns `false`
    leaving whatever was parsed so far; a `std::stoi` exception is caught,
    the tables are cleared, and `false` is returned. -/
def restore (_db : DB) (backupData : String) (now : Int) : Bool × DB :=
  match restoreCore now (strLines backupData) with
  | .ok (st, _) => (true, st)
  | .truncated st => (false, st)
  | .badNum => (false, emptyDB)

/-! ### Well-formedness and observational equality -/

/-- The keys of an association list are pairwise distinct (always true of a
    real `unordered_map`). -/
def NodupKeys {β : Type} (l : List (String × β)) : Prop := (keysOf l).Nodup

/-- Well-formed store: distinct keys in both tables and in every field map,
    and no record with zero fields. -/
def WF (db : DB) : Prop :=
  NodupKeys db.records ∧ (∀ p ∈ db.records, NodupKeys p.2 ∧ p.2 ≠ []) ∧
    NodupKeys db.ttlMap

/-- No record id, field name or field value contains a newline character
    (the line separator of the snapshot format). -/
def NoNewlines (db : DB) : Prop :=
  ∀ p ∈ db.records, '\n' ∉ p.1.data ∧ ∀ q ∈ p.2, '\n' ∉ q.1.data ∧ '\n' ∉ q.2.data

/-- Table sizes and remaining TTL seconds fit in a C++ `int`
    (`std::stoi` range, `static_cast<int>`). -/
def Bounded (db : DB) (now : Int) : Prop :=
  db.records.length ≤ 2147483647 ∧ (∀ p ∈ db.records, p.2.length ≤ 2147483647) ∧
    ∀ p ∈ db.ttlMap, p.2 - now ≤ 2147483647

instance {β : Type} (l : List (String × β)) : Decidable (NodupKeys l) :=
  List.nodupDecidable _

instance (db : DB) : Decidable (WF db) :=
  inferInstanceAs (Decidable (_ ∧ _ ∧ _))

instance (db : DB) : Decidable (NoNewlines db) :=
  inferInstanceAs (Decidable (∀ p ∈ db.records, _ ∧ ∀ q ∈ p.2, _ ∧ _))

instance (db : DB) (now : Int) : Decidable (Bounded db now) :=
  inferInstanceAs (Decidable (_ ∧ _ ∧ _))

/-- Observational equality at instant `now` under the four read operations of
    the round-trip law. -/
def ObsEq (db1 db2 : DB) (now : Int) : Prop :=
  (∀ rid f, get db1 rid f now = get db2 rid f now) ∧
  (∀ rid, getFields db1 rid now = getFields db2 rid now) ∧
  (∀ rid, hasRecord db1 rid now = hasRecord db2 rid now) ∧
  getAllRecordIds db1 now = getAllRecordIds db2 now

/-! ### Derived descriptions of the snapshot and reachable states -/

/-- The record section `backup` emits for a list of record entries. -/
def serializeRecs (rs : RecMap) : List String :=
  rs.flatMap fun p => p.1 :: natToDec p.2.length :: serializeFM p.2

/-- The TTL section `backup` emits for a list of TTL entries. -/
def serializeTTLs (ts : List (String × Int)) : List String :=
  ts.flatMap fun p => [p.1, intToDec p.2]

/-- The store state `restore` rebuilds from a backup of `db` taken at `now`:
    the non-expired records, and the kept TTL entries re-anchored to `now`. -/
def restoredDB (db : DB) (now : Int) : DB :=
  ⟨validRecsOf db now, (validTTLsOf db now).map fun p => (p.1, now + p.2)⟩

/-- Monotone-clock reachability from the empty store under the mutating
    operations other than `restore`: time may advance, and `set`,
    `deleteField`, `deleteRecord`, `setTTL` or `expireRecords` may run (the
    read operations are pure and do not change the state). -/
inductive Reachable : DB → Int → Prop where
  | init (now : Int) : Reachable emptyDB now
  | tick {db : DB} {now now2 : Int} :
      Reachable db now → now ≤ now2 → Reachable db now2
  | opSet {db : DB} {now : Int} (rid f v : String) :
      Reachable db now → Reachable (set db rid f v now) now
  | opDeleteField {db : DB} {now : Int} (rid f : String) :
      Reachable db now → Reachable (deleteField db rid f now).2 now
  | opDeleteRecord {db : DB} {now : Int} (rid : String) :
      Reachable db now → Reachable (deleteRecord db rid).2 now
  | opSetTTL {db : DB} {now : Int} (rid : String) (t : Int) :
      Reachable db now → Reachable (setTTL db rid t now) now
  | opExpire {db : DB} {now : Int} :
      Reachable db now → Reachable (expireRecords db now).2 now

/-- The C8 invariant: every id in the TTL table is also in the record table,
    except when its expiration instant has already passed (pending lazy
    cleanup). -/
def TTLBacked (db : DB) (now : Int) : Prop :=
  ∀ rid inst, lookupA db.ttlMap rid = some inst →
    (lookupA db.records rid).isSome = true ∨ inst ≤ now

/-- Inductive strengthening of `TTLBacked`: the two tables also have
    duplicate-free keys. -/
def StoreInv (db : DB) (now : Int) : Prop :=
  TTLBacked db now ∧ NodupKeys db.records ∧ NodupKeys db.ttlMap

/-! ### Concrete stores used as claim inputs and witnesses -/

/-- The store produced by the single operation `set("a", "f", "x\ny")` on an
    empty store: its value contains a newline. -/
def c1xdb : DB := set emptyDB "a" "f" "x\ny" 0

/-- A concrete well-formed store exercising `c1_roundtrip_newline_free`. -/
def c1wdb : DB :=
  ⟨[("a", [("f", "v"), ("g", "w")]), ("b", [("k", "z")])], [("a", 5)]⟩

/-- The store reached by `set("a","f","v")` then `setTTL("a", 0)` at instant
    0; at instant 5 the record is logically expired but still present. -/
def c3db : DB := setTTL (set emptyDB "a" "f" "v" 0) "a" 0 0

/-- A store with one single-field record carrying a TTL and one unrelated
    record. -/
def c4db : DB := ⟨[("a", [("f", "v")]), ("b", [("g", "w")])], [("a", 50)]⟩

/-- The third filtering scenario of the spec: two matches, one mismatch. -/
def c6db : DB := ⟨[("c", [("k", "w")]), ("a", [("k", "v")]), ("b", [("k", "v")])], []⟩

/-- A store with one record whose TTL instant 3 has passed at instant 10. -/
def c7db : DB := ⟨[("t", [("d", "x")])], [("t", 3)]⟩

/-- A store at instant 5: `"a"` expired (instant 3), `"b"` alive
    (instant 10). -/
def c9db : DB := ⟨[("a", [("f", "v")]), ("b", [("g", "w")])], [("a", 3), ("b", 10)]⟩

/-- A structurally complete snapshot: one record, one field, no TTLs. -/
def c10s : String := "1\na\n1\nf\nv\n0\n"

/-! ### Association list lemmas -/

section AList

variable {β : Type}

theorem keysOf_nil : keysOf ([] : List (String × β)) = [] := rfl

theorem keysOf_cons (p : String × β) (l : List (String × β)) :
    keysOf (p :: l) = p.1 :: keysOf l := rfl

theorem keysOf_append (l1 l2 : List (String × β)) :
    keysOf (l1 ++ l2) = keysOf l1 ++ keysOf l2 := List.map_append _ _ _

theorem lookupA_eq_none {l : List (String × β)} {a : String} :
    lookupA l a = none ↔ a ∉ keysOf l := by
  induction l with
  | nil => simp [lookupA, keysOf]
  | cons p t ih =>
    obtain ⟨k, v⟩ := p
    by_cases h : k = a
    · subst h
      simp [lookupA, keysOf_cons]
    · simp [lookupA, h, keysOf_cons, ih, Ne.symm h]

theorem lookupA_isSome {l : List (String × β)} {a : String} :
    (lookupA l a).isSome = true ↔ a ∈ keysOf l := by
  rw [← Option.ne_none_iff_isSome, ne_eq, lookupA_eq_none]
  exact not_not

theorem mem_of_lookupA_some {l : List (String × β)} {a : String} {b : β}
    (h : lookupA l a = some b) : (a, b) ∈ l := by
  induction l with
  | nil => simp [lookupA] at h
  | cons p t ih =>
    obtain ⟨k, v⟩ := p
    by_cases hk : k = a
    · subst hk
      simp only [lookupA, if_true, eq_self_iff_true, Option.some.injEq] at h
      subst h
      exact List.mem_cons_self _ _
    · simp only [lookupA, if_neg hk] at h
      exact List.mem_cons_of_mem _ (ih h)

theorem lookupA_of_mem {l : List (String × β)} {a : String} {b : β}
    (hnd : NodupKeys l) (h : (a, b) ∈ l) : lookupA l a = some b := by
  induction l with
  | nil => simp at h
  | cons p t ih =>
    obtain ⟨k, v⟩ := p
    rw [NodupKeys, keysOf_cons, List.nodup_cons] at hnd
    rcases List.mem_cons.1 h with h1 | h1
    · injection h1 with h2 h3
      subst h2; subst h3
      simp [lookupA]
    · have hmem : a ∈ keysOf t := by
        have := List.mem_map_of_mem Prod.fst h1
        simpa [keysOf] using this
      have hka : k ≠ a := fun hh => hnd.1 (by rw [hh]; exact hmem)
      simp [lookupA, hka, ih hnd.2 h1]

theorem lookupA_eraseA_self {l : List (String × β)} {a : String}
    (hnd : NodupKeys l) : lookupA (eraseA l a) a = none := by
  induction l with
  | nil => simp [eraseA, lookupA]
  | cons p t ih =>
    obtain ⟨k, v⟩ := p
    rw [NodupKeys, keysOf_cons, List.nodup_cons] at hnd
    by_cases hk : k = a
    · subst hk
      simp only [eraseA, if_pos rfl]
      rw [lookupA_eq_none]
      exact hnd.1
    · simp only [eraseA, if_neg hk, lookupA, if_neg hk]
      exact ih hnd.2

theorem lookupA_eraseA_ne {l : List (String × β)} {a a' : String}
    (h : a ≠ a') : lookupA (eraseA l a) a' = lookupA l a' := by
  induction l with
  | nil => simp [eraseA]
  | cons p t ih =>
    obtain ⟨k, v⟩ := p
    by_cases hk : k = a
    · subst hk
      have hka : k ≠ a' := h
      simp [eraseA, lookupA, hka]
    · simp [eraseA, hk, lookupA, ih]

theorem keysOf_eraseA_sublist (l : List (String × β)) (a : String) :
    List.Sublist (keysOf (eraseA l a)) (keysOf l) := by
  induction l with
  | nil => simp [eraseA]
  | cons p t ih =>
    obtain ⟨k, v⟩ := p
    by_cases hk : k = a
    · simp only [eraseA, if_pos hk, keysOf_cons]
      exact List.sublist_cons_self _ _
    · simp only [eraseA, if_neg hk, keysOf_cons]
      exact ih.cons₂ k

theorem nodupKeys_eraseA {l : List (String × β)} {a : String}
    (hnd : NodupKeys l) : NodupKeys (eraseA l a) :=
  (keysOf_eraseA_sublist l a).nodup hnd

theorem lookupA_insertA_self (l : List (String × β)) (a : String) (b : β) :
    lookupA (insertA l a b) a = some b := by
  induction l with
  | nil => simp [insertA, lookupA]
  | cons p t ih =>
    obtain ⟨k, v⟩ := p
    by_cases hk : k = a <;> simp [insertA, lookupA, hk, ih]

theorem lookupA_insertA_ne {l : List (String × β)} {a a' : String} (b : β)
    (h : a ≠ a') : lookupA (insertA l a b) a' = lookupA l a' := by
  induction l with
  | nil => simp [insertA, lookupA, h]
  | cons p t ih =>
    obtain ⟨k, v⟩ := p
    by_cases hk : k = a
    · subst hk
      simp [insertA, lookupA, h]
    · simp [insertA, hk, lookupA, ih]

theorem insertA_fresh {l : List (String × β)} {a : String} (b : β)
    (h : a ∉ keysOf l) : insertA l a b = l ++ [(a, b)] := by
  induction l with
  | nil => simp [insertA]
  | cons p t ih =>
    obtain ⟨k, v⟩ := p
    rw [keysOf_cons, List.mem_cons] at h
    push_neg at h
    have h1 : ¬ k = a := fun hh => h.1 hh.symm
    simp [insertA, h1, ih h.2]

theorem keysOf_insertA {l : List (String × β)} (a : String) (b : β) :
    keysOf (insertA l a b) = if a ∈ keysOf l then keysOf l else keysOf l ++ [a] := by
  induction l with
  | nil => simp [insertA, keysOf]
  | cons p t ih =>
    obtain ⟨k, v⟩ := p
    by_cases hk : k = a
    · subst hk
      simp [insertA, keysOf_cons]
    · have hne : ¬ a = k := fun hh => hk hh.symm
      simp only [insertA, if_neg hk, keysOf_cons, ih, List.mem_cons, hne, false_or]
      by_cases hm : a ∈ keysOf t <;> simp [hm]

theorem nodupKeys_insertA {l : List (String × β)} {a : String} (b : β)
    (hnd : NodupKeys l) : NodupKeys (insertA l a b) := by
  rw [NodupKeys, keysOf_insertA]
  by_cases hm : a ∈ keysOf l
  · simpa [hm] using hnd
  · simp only [if_neg hm]
    refine List.Nodup.append hnd (List.nodup_singleton a) ?_
    intro x hx hx'
    simp only [List.mem_singleton] at hx'
    exact hm (hx' ▸ hx)

end AList

/-! ### Lemmas about `setField`, filtered tables, and bulk erasure -/

theorem setField_absent {recs : RecMap} {rid : String} (f v : String)
    (h : rid ∉ keysOf recs) : setField recs rid f v = recs ++ [(rid, [(f, v)])] := by
  induction recs with
  | nil => simp [setField]
  | cons p t ih =>
    obtain ⟨k, fm⟩ := p
    rw [keysOf_cons, List.mem_cons] at h
    push_neg at h
    have h1 : ¬ k = rid := fun hh => h.1 hh.symm
    simp [setField, h1, ih h.2]

theorem setField_snoc {recs0 : RecMap} {rid : String} (fm : FieldMap) (f v : String)
    (h : rid ∉ keysOf recs0) :
    setField (recs0 ++ [(rid, fm)]) rid f v = recs0 ++ [(rid, insertA fm f v)] := by
  induction recs0 with
  | nil => simp [setField]
  | cons p t ih =>
    obtain ⟨k, fm'⟩ := p
    rw [keysOf_cons, List.mem_cons] at h
    push_neg at h
    have h1 : ¬ k = rid := fun hh => h.1 hh.symm
    simp [setField, h1, ih h.2]

theorem lookupA_setField_ne {recs : RecMap} {rid k : String} (f v : String)
    (h : k ≠ rid) : lookupA (setField recs rid f v) k = lookupA recs k := by
  induction recs with
  | nil => simp [setField, lookupA, Ne.symm h]
  | cons p t ih =>
    obtain ⟨k', fm⟩ := p
    by_cases hk : k' = rid
    · subst hk
      have hkk : k' ≠ k := Ne.symm h
      simp [setField, lookupA, hkk]
    · simp [setField, hk, lookupA, ih]

theorem lookupA_setField_self (recs : RecMap) (rid f v : String) :
    lookupA (setField recs rid f v) rid =
      some (match lookupA recs rid with
            | none => [(f, v)]
            | some fm => insertA fm f v) := by
  induction recs with
  | nil => simp [setField, lookupA]
  | cons p t ih =>
    obtain ⟨k, fm⟩ := p
    by_cases hk : k = rid
    · subst hk
      simp [setField, lookupA]
    · simp [setField, hk, lookupA, ih]

theorem keysOf_setField (recs : RecMap) (rid f v : String) :
    keysOf (setField recs rid f v) =
      if rid ∈ keysOf recs then keysOf recs else keysOf recs ++ [rid] := by
  induction recs with
  | nil => simp [setField, keysOf]
  | cons p t ih =>
    obtain ⟨k, fm⟩ := p
    by_cases hk : k = rid
    · subst hk
      simp [setField, keysOf_cons]
    · have hne : ¬ rid = k := fun hh => hk hh.symm
      simp only [setField, if_neg hk, keysOf_cons, ih, List.mem_cons, hne, false_or]
      by_cases hm : rid ∈ keysOf t <;> simp [hm]

theorem nodupKeys_setField {recs : RecMap} (rid f v : String)
    (hnd : NodupKeys recs) : NodupKeys (setField recs rid f v) := by
  rw [NodupKeys, keysOf_setField]
  by_cases hm : rid ∈ keysOf recs
  · simpa [hm] using hnd
  · simp only [if_neg hm]
    refine List.Nodup.append hnd (List.nodup_singleton rid) ?_
    intro x hx hx'
    simp only [List.mem_singleton] at hx'
    exact hm (hx' ▸ hx)

theorem keysOf_filter_sublist {β : Type} (l : List (String × β)) (p : String × β → Bool) :
    List.Sublist (keysOf (l.filter p)) (keysOf l) :=
  List.Sublist.map Prod.fst (List.filter_sublist l)

theorem nodupKeys_filter {β : Type} {l : List (String × β)} (p : String × β → Bool)
    (hnd : NodupKeys l) : NodupKeys (l.filter p) :=
  (keysOf_filter_sublist l p).nodup hnd

/-- Looking a key up in a filtered table: present iff it was present and its
    entry passes the filter (distinct keys). -/
theorem lookupA_filter {β : Type} {l : List (String × β)} (p : String × β → Bool)
    {a : String} (hnd : NodupKeys l) :
    lookupA (l.filter p) a =
      (lookupA l a).bind fun b => if p (a, b) then some b else none := by
  induction l with
  | nil => simp [lookupA]
  | cons q t ih =>
    obtain ⟨k, v⟩ := q
    rw [NodupKeys, keysOf_cons, List.nodup_cons] at hnd
    by_cases hk : k = a
    · subst hk
      have hnone : lookupA (t.filter p) k = none := by
        rw [lookupA_eq_none]
        intro hmem
        exact hnd.1 ((keysOf_filter_sublist t p).subset hmem)
      by_cases hp : p (k, v) <;> simp [List.filter_cons, hp, lookupA, hnone]
    · by_cases hp : p (k, v) <;> simp [List.filter_cons, hp, lookupA, hk, ih hnd.2]

/-- Re-keying the values of a table commutes with lookup. -/
theorem lookupA_mapVal {β γ : Type} (g : String → β → γ) (l : List (String × β))
    (a : String) :
    lookupA (l.map fun q => (q.1, g q.1 q.2)) a = (lookupA l a).map (g a) := by
  induction l with
  | nil => simp [lookupA]
  | cons q t ih =>
    obtain ⟨k, v⟩ := q
    by_cases hk : k = a
    · subst hk
      simp [lookupA]
    · simp [lookupA, hk, ih]

/-- `cleanupExpiredRecord` folded over a list of ids acts componentwise. -/
theorem foldl_cleanup_components (ids : List String) (db : DB) :
    ids.foldl cleanupExpiredRecord db =
      ⟨ids.foldl eraseA db.records, ids.foldl eraseA db.ttlMap⟩ := by
  induction ids generalizing db with
  | nil => simp
  | cons i ids ih => simp [ih, cleanupExpiredRecord]

/-- Erasing a key from a duplicate-free table is filtering it out. -/
theorem eraseA_eq_filter {β : Type} {l : List (String × β)} {a : String}
    (hnd : NodupKeys l) : eraseA l a = l.filter fun q => !decide (q.1 = a) := by
  induction l with
  | nil => simp [eraseA]
  | cons q t ih =>
    obtain ⟨k, v⟩ := q
    rw [NodupKeys, keysOf_cons, List.nodup_cons] at hnd
    by_cases hk : k = a
    · subst hk
      have hid : t.filter (fun q => !decide (q.1 = k)) = t := by
        rw [List.filter_eq_self]
        intro q hq
        simp only [Bool.not_eq_eq_eq_not, Bool.not_true, decide_eq_false_iff_not]
        intro hh
        apply hnd.1
        rw [← hh]
        simpa [keysOf] using List.mem_map_of_mem Prod.fst hq
      simp [eraseA, List.filter_cons, hid]
    · simp [eraseA, hk, List.filter_cons, ih hnd.2]

/-- Bulk erasure of a set of ids from a duplicate-free table is a filter. -/
theorem foldl_eraseA_eq_filter {β : Type} (ids : List String) {l : List (String × β)}
    (hnd : NodupKeys l) :
    ids.foldl eraseA l = l.filter fun q => !decide (q.1 ∈ ids) := by
  induction ids generalizing l with
  | nil => simp
  | cons i ids ih =>
    have h1 : NodupKeys (eraseA l i) := nodupKeys_eraseA hnd
    rw [List.foldl_cons, ih h1, eraseA_eq_filter hnd, List.filter_filter]
    apply List.filter_congr
    intro q _
    by_cases hqi : q.1 = i <;> by_cases hqs : q.1 ∈ ids <;> simp [hqi, hqs]

/-! ### Decimal printing and `stoi` -/

theorem digitChar_isDigit {d : Nat} (h : d < 10) : (digitChar d).isDigit = true := by
  interval_cases d <;> decide

theorem digVal_digitChar {d : Nat} (h : d < 10) : digVal (digitChar d) = d := by
  interval_cases d <;> decide

theorem digitChar_ne_newline {d : Nat} (h : d < 10) : digitChar d ≠ '\n' := by
  interval_cases d <;> decide

theorem isSpaceC_of_digit {c : Char} (h : c.isDigit = true) : isSpaceC c = false := by
  rcases Bool.eq_false_or_eq_true (isSpaceC c) with ht | hf
  · exfalso
    rw [isSpaceC] at ht
    simp only [Bool.or_eq_true, decide_eq_true_eq] at ht
    rcases ht with ((((h1 | h1) | h1) | h1) | h1) | h1 <;>
      (subst h1; exact absurd h (by decide))
  · exact hf

theorem digit_ne_minus {c : Char} (h : c.isDigit = true) : ¬ c = '-' := by
  intro hh; subst hh; exact absurd h (by decide)

theorem digit_ne_plus {c : Char} (h : c.isDigit = true) : ¬ c = '+' := by
  intro hh; subst hh; exact absurd h (by decide)

theorem natDigitsF_congr : ∀ f g n : Nat, n ≤ f → n ≤ g →
    natDigitsF f n = natDigitsF g n := by
  intro f
  induction f with
  | zero =>
    intro g n hf _
    cases g with
    | zero => rfl
    | succ g =>
      have hn : n = 0 := Nat.le_zero.1 hf
      subst hn
      simp [natDigitsF]
  | succ f ih =>
    intro g n hf hg
    cases g with
    | zero =>
      have hn : n = 0 := Nat.le_zero.1 hg
      subst hn
      simp [natDigitsF]
    | succ g =>
      by_cases h : n < 10
      · simp [natDigitsF, h]
      · simp only [natDigitsF, if_neg h]
        have hlt : n / 10 < n := Nat.div_lt_self (by omega) (by omega)
        rw [ih g (n / 10) (by omega) (by omega)]

/-- The natural recurrence of decimal printing. -/
theorem natDigits_eq (n : Nat) :
    natDigits n = if n < 10 then [digitChar n]
      else natDigits (n / 10) ++ [digitChar (n % 10)] := by
  rw [natDigits]
  cases n with
  | zero => simp [natDigitsF]
  | succ k =>
    rw [natDigitsF]
    by_cases h : k + 1 < 10
    · rw [if_pos h, if_pos h]
    · rw [if_neg h, if_neg h, natDigits]
      have hlt : (k + 1) / 10 < k + 1 := Nat.div_lt_self (by omega) (by omega)
      rw [natDigitsF_congr k ((k + 1) / 10) ((k + 1) / 10) (by omega) (le_refl _)]

theorem natDigits_ne_nil (n : Nat) : natDigits n ≠ [] := by
  rw [natDigits_eq]
  by_cases h : n < 10 <;> simp [h]

theorem natDigits_all_digits (n : Nat) : ∀ c ∈ natDigits n, c.isDigit = true := by
  induction n using Nat.strong_induction_on with
  | _ n ih =>
    rw [natDigits_eq]
    by_cases h : n < 10
    · simp only [if_pos h, List.mem_singleton]
      rintro c rfl
      exact digitChar_isDigit h
    · simp only [if_neg h, List.mem_append, List.mem_singleton]
      rintro c (hc | rfl)
      · exact ih (n / 10) (Nat.div_lt_self (by omega) (by omega)) c hc
      · exact digitChar_isDigit (Nat.mod_lt n (by omega))

theorem natDigits_no_newline (n : Nat) : '\n' ∉ natDigits n := by
  intro hm
  have := natDigits_all_digits n '\n' hm
  exact absurd this (by decide)

theorem decValue_snoc (ds : List Char) (c : Char) :
    decValue (ds ++ [c]) = decValue ds * 10 + digVal c := by
  simp [decValue, List.foldl_append]

theorem decValue_natDigits (n : Nat) : decValue (natDigits n) = n := by
  induction n using Nat.strong_induction_on with
  | _ n ih =>
    rw [natDigits_eq]
    by_cases h : n < 10
    · simp only [if_pos h]
      simp [decValue, digVal_digitChar h]
    · simp only [if_neg h]
      rw [decValue_snoc, ih (n / 10) (Nat.div_lt_self (by omega) (by omega)),
        digVal_digitChar (Nat.mod_lt n (by omega))]
      omega

theorem takeWhile_digits_eq_self {cs : List Char}
    (hall : ∀ c ∈ cs, c.isDigit = true) : cs.takeWhile Char.isDigit = cs := by
  induction cs with
  | nil => simp
  | cons c t ih =>
    rw [List.takeWhile_cons, if_pos (hall c (List.mem_cons_self c t))]
    rw [ih fun x hx => hall x (List.mem_cons_of_mem c hx)]

theorem stoiChars_of_digits {cs : List Char} (hne : cs ≠ [])
    (hall : ∀ c ∈ cs, c.isDigit = true) (hb : decValue cs ≤ 2147483647) :
    stoiChars cs = some (decValue cs : Int) := by
  cases cs with
  | nil => cases hne rfl
  | cons c t =>
    have hc : c.isDigit = true := hall c (List.mem_cons_self c t)
    rw [stoiChars, List.dropWhile_cons, if_neg (by simp [isSpaceC_of_digit hc])]
    simp only [if_neg (digit_ne_minus hc), if_neg (digit_ne_plus hc)]
    rw [stoiMag, takeWhile_digits_eq_self hall]
    have hne2 : (c :: t).isEmpty = false := rfl
    have hcond : ¬((decValue (c :: t) : Int) < -2147483648 ∨
        (2147483647 : Int) < (decValue (c :: t) : Int)) := by
      push_neg
      omega
    simp only [hne2, Bool.false_eq_true, if_false, Option.some_bind, rangeChk,
      if_neg hcond]

theorem stoi_natToDec {n : Nat} (hb : n ≤ 2147483647) :
    stoi (natToDec n) = some (n : Int) := by
  rw [stoi, natToDec]
  have hd : (String.mk (natDigits n)).data = natDigits n := rfl
  rw [hd, stoiChars_of_digits (natDigits_ne_nil n) (natDigits_all_digits n)
    (by rw [decValue_natDigits]; exact hb), decValue_natDigits]

theorem intToDec_nonneg {i : Int} (h0 : 0 ≤ i) : intToDec i = natToDec i.toNat := by
  rw [intToDec, if_neg (by omega)]

theorem stoi_intToDec {i : Int} (h0 : 0 ≤ i) (hb : i ≤ 2147483647) :
    stoi (intToDec i) = some i := by
  rw [intToDec_nonneg h0, stoi_natToDec (by omega), Int.toNat_of_nonneg h0]

theorem intCast_eq_self {x : Int} (h1 : -2147483648 ≤ x) (h2 : x ≤ 2147483647) :
    intCast x = x := by
  rw [intCast]
  omega

/-! ### The `getline` model -/

theorem linesAux_nil (acc : List Char) :
    linesAux [] acc = [String.mk acc.reverse] := rfl

theorem linesAux_cons (c : Char) (cs : List Char) (acc : List Char) :
    linesAux (c :: cs) acc =
      if c = '\n' then
        String.mk acc.reverse :: (if cs.isEmpty then [] else linesAux cs [])
      else linesAux cs (c :: acc) := rfl

theorem strLines_mk_of_ne_nil {xs : List Char} (h : xs ≠ []) :
    strLines (String.mk xs) = linesAux xs [] := by
  cases xs with
  | nil => cases h rfl
  | cons c t => rfl

theorem strLines_match (cs : List Char) :
    (if cs.isEmpty then ([] : List String) else linesAux cs []) =
      strLines (String.mk cs) := by
  cases cs <;> rfl

/-- Reading a newline-free line followed by `'\n'`: the line is emitted and
    reading continues on the remainder. -/
theorem linesAux_line_newline {line : List Char} (rest : List Char) (acc : List Char)
    (hnl : '\n' ∉ line) :
    linesAux (line ++ '\n' :: rest) acc =
      String.mk (acc.reverse ++ line) :: strLines (String.mk rest) := by
  induction line generalizing acc with
  | nil =>
    rw [List.nil_append, linesAux_cons, if_pos rfl, List.append_nil, strLines_match]
  | cons c cs ih =>
    have hc : ¬ c = '\n' := fun hh => hnl (hh ▸ List.mem_cons_self c cs)
    rw [List.cons_append, linesAux_cons, if_neg hc,
      ih (c :: acc) fun hm => hnl (List.mem_cons_of_mem c hm)]
    simp

/-- `strLines` undoes the newline-terminated flattening of `backup`, provided
    no line contains a newline itself. -/
theorem strLines_flatten (ls : List String) (hnl : ∀ s ∈ ls, '\n' ∉ s.data) :
    strLines (String.mk (ls.flatMap fun s => s.data ++ ['\n'])) = ls := by
  induction ls with
  | nil => rfl
  | cons s ls ih =>
    rw [List.flatMap_cons]
    have hshape : (s.data ++ ['\n']) ++ (ls.flatMap fun s => s.data ++ ['\n'])
        = s.data ++ '\n' :: (ls.flatMap fun s => s.data ++ ['\n']) := by simp
    have hne : s.data ++ '\n' :: (ls.flatMap fun s => s.data ++ ['\n']) ≠ [] := by
      cases hd : s.data <;> simp [hd]
    rw [hshape, strLines_mk_of_ne_nil hne,
      linesAux_line_newline _ [] (hnl s (List.mem_cons_self s ls)),
      ih fun x hx => hnl x (List.mem_cons_of_mem s hx)]
    rfl

/-! ### Parsing the serialized sections back -/

theorem parseFields_serialize (ps : FieldMap) (rest : List String) (recs : RecMap)
    (rid : String) :
    parseFields ps.length (serializeFM ps ++ rest) recs rid =
      .ok (ps.foldl (fun r q => setField r rid q.1 q.2) recs, rest) := by
  induction ps generalizing recs with
  | nil => simp [serializeFM, parseFields]
  | cons q ps ih =>
    obtain ⟨f, v⟩ := q
    have hshape : serializeFM ((f, v) :: ps) ++ rest
        = f :: v :: (serializeFM ps ++ rest) := by
      simp [serializeFM, List.flatMap_cons]
    rw [List.length_cons, hshape]
    simp only [parseFields]
    rw [ih, List.foldl_cons]

theorem foldl_setField_acc {recs0 : RecMap} {rid : String} (ps : FieldMap)
    (fm0 : FieldMap) (h : rid ∉ keysOf recs0)
    (hnd : (keysOf fm0 ++ keysOf ps).Nodup) :
    ps.foldl (fun r q => setField r rid q.1 q.2) (recs0 ++ [(rid, fm0)]) =
      recs0 ++ [(rid, fm0 ++ ps)] := by
  induction ps generalizing fm0 with
  | nil => simp
  | cons q ps ih =>
    obtain ⟨f, v⟩ := q
    have hfk : f ∉ keysOf fm0 := by
      intro hf
      have hd := (List.nodup_append.1 hnd).2.2
      exact hd hf (by simp [keysOf_cons])
    rw [List.foldl_cons]
    have hstep : setField (recs0 ++ [(rid, fm0)]) rid f v
        = recs0 ++ [(rid, fm0 ++ [(f, v)])] := by
      rw [setField_snoc fm0 f v h, insertA_fresh v hfk]
    rw [hstep, ih (fm0 ++ [(f, v)])]
    · simp
    · rw [keysOf_append]
      have hshape : (keysOf fm0 ++ keysOf [(f, v)]) ++ keysOf ps
          = keysOf fm0 ++ keysOf ((f, v) :: ps) := by
        simp [keysOf_cons, keysOf]
      rw [hshape]
      exact hnd

theorem foldl_setField_fresh {recs0 : RecMap} {rid : String} (ps : FieldMap)
    (h : rid ∉ keysOf recs0) (hnd : NodupKeys ps) (hne : ps ≠ []) :
    ps.foldl (fun r q => setField r rid q.1 q.2) recs0 = recs0 ++ [(rid, ps)] := by
  cases ps with
  | nil => cases hne rfl
  | cons q ps =>
    obtain ⟨f, v⟩ := q
    rw [List.foldl_cons, setField_absent f v h, foldl_setField_acc ps [(f, v)] h]
    · simp
    · have hk : keysOf ([(f, v)] : FieldMap) ++ keysOf ps = keysOf ((f, v) :: ps) := by
        simp [keysOf, keysOf_cons]
      rw [hk]
      exact hnd

theorem parseRecords_serialize (rs : RecMap) (rest : List String) (recs0 : RecMap)
    (hnd : (keysOf recs0 ++ keysOf rs).Nodup)
    (hfm : ∀ p ∈ rs, NodupKeys p.2 ∧ p.2 ≠ [])
    (hb : ∀ p ∈ rs, p.2.length ≤ 2147483647) :
    parseRecords rs.length (serializeRecs rs ++ rest) recs0 = .ok (recs0 ++ rs, rest) := by
  induction rs generalizing recs0 with
  | nil => simp [serializeRecs, parseRecords]
  | cons p rs ih =>
    obtain ⟨rid, fm⟩ := p
    have hmem : ((rid, fm) : String × FieldMap) ∈ (rid, fm) :: rs :=
      List.mem_cons_self _ _
    have hrid : rid ∉ keysOf recs0 := by
      intro hf
      have hd := (List.nodup_append.1 hnd).2.2
      exact hd hf (by simp [keysOf_cons])
    have hshape : serializeRecs ((rid, fm) :: rs) ++ rest
        = rid :: natToDec fm.length :: (serializeFM fm ++ (serializeRecs rs ++ rest)) := by
      simp [serializeRecs, List.flatMap_cons]
    rw [List.length_cons, hshape]
    simp only [parseRecords, stoi_natToDec (hb _ hmem), Int.toNat_natCast,
      parseFields_serialize]
    rw [foldl_setField_fresh fm hrid (hfm _ hmem).1 (hfm _ hmem).2]
    rw [ih (recs0 ++ [(rid, fm)])]
    · simp
    · rw [keysOf_append]
      have hshape2 : (keysOf recs0 ++ keysOf [(rid, fm)]) ++ keysOf rs
          = keysOf recs0 ++ keysOf ((rid, fm) :: rs) := by
        simp [keysOf_cons, keysOf]
      rw [hshape2]
      exact hnd
    · exact fun p hp => (hfm p (List.mem_cons_of_mem _ hp))
    · exact fun p hp => (hb p (List.mem_cons_of_mem _ hp))

theorem parseTTLs_serialize (now : Int) (ts : List (String × Int)) (rest : List String)
    (ttl0 : TTLMap) (hnd : (keysOf ttl0 ++ keysOf ts).Nodup)
    (hb : ∀ p ∈ ts, 0 ≤ p.2 ∧ p.2 ≤ 2147483647) :
    parseTTLs now ts.length (serializeTTLs ts ++ rest) ttl0 =
      .ok (ttl0 ++ ts.map fun p => (p.1, now + p.2), rest) := by
  induction ts generalizing ttl0 with
  | nil => simp [serializeTTLs, parseTTLs]
  | cons p ts ih =>
    obtain ⟨rid, r⟩ := p
    have hmem : ((rid, r) : String × Int) ∈ (rid, r) :: ts := List.mem_cons_self _ _
    have hrid : rid ∉ keysOf ttl0 := by
      intro hf
      have hd := (List.nodup_append.1 hnd).2.2
      exact hd hf (by simp [keysOf_cons])
    have hshape : serializeTTLs ((rid, r) :: ts) ++ rest
        = rid :: intToDec r :: (serializeTTLs ts ++ rest) := by
      simp [serializeTTLs, List.flatMap_cons]
    rw [List.length_cons, hshape]
    simp only [parseTTLs, stoi_intToDec (hb _ hmem).1 (hb _ hmem).2]
    rw [insertA_fresh (now + r) hrid]
    rw [ih (ttl0 ++ [(rid, now + r)])]
    · simp
    · rw [keysOf_append]
      have hshape2 : (keysOf ttl0 ++ keysOf [(rid, now + r)]) ++ keysOf ts
          = keysOf ttl0 ++ keysOf ((rid, r) :: ts) := by
        simp [keysOf_cons, keysOf]
      rw [hshape2]
      exact hnd
    · exact fun p hp => hb p (List.mem_cons_of_mem _ hp)

/-! ### Content of the snapshot produced by `backup` -/

theorem mem_validRecsOf {db : DB} {now : Int} {p : String × FieldMap}
    (h : p ∈ validRecsOf db now) :
    p ∈ db.records ∧ isRecordExpired db p.1 now = false := by
  rw [validRecsOf, List.mem_filter] at h
  exact ⟨h.1, by simpa using h.2⟩

theorem nodupKeys_validRecsOf {db : DB} {now : Int} (hnd : NodupKeys db.records) :
    NodupKeys (validRecsOf db now) := nodupKeys_filter _ hnd

theorem lookupA_validRecsOf (db : DB) (now : Int) (rid : String)
    (hnd : NodupKeys db.records) :
    lookupA (validRecsOf db now) rid =
      (lookupA db.records rid).bind fun fm =>
        if isRecordExpired db rid now then none else some fm := by
  rw [validRecsOf, lookupA_filter _ hnd]
  cases lookupA db.records rid with
  | none => rfl
  | some fm =>
    by_cases he : isRecordExpired db rid now <;> simp [he]

theorem mem_validTTLsOf {db : DB} {now : Int} {q : String × Int}
    (h : q ∈ validTTLsOf db now) :
    q.1 ∈ keysOf (validRecsOf db now) ∧
      ∃ inst, lookupA db.ttlMap q.1 = some inst ∧ 0 < inst - now ∧
        q.2 = intCast (inst - now) := by
  rw [validTTLsOf, List.mem_filterMap] at h
  obtain ⟨rid, hrid, hf⟩ := h
  cases hl : lookupA db.ttlMap rid with
  | none =>
    simp only [hl] at hf
    cases hf
  | some inst =>
    simp only [hl] at hf
    by_cases hpos : 0 < inst - now
    · rw [if_pos hpos] at hf
      injection hf with hf
      subst hf
      exact ⟨hrid, inst, hl, hpos, rfl⟩
    · rw [if_neg hpos] at hf
      cases hf

theorem keysOf_validTTLsOf_sublist (db : DB) (now : Int) :
    List.Sublist (keysOf (validTTLsOf db now)) (keysOf (validRecsOf db now)) := by
  rw [validTTLsOf]
  generalize keysOf (validRecsOf db now) = ids
  induction ids with
  | nil => simp [keysOf]
  | cons i t ih =>
    rw [List.filterMap_cons]
    cases hl : lookupA db.ttlMap i with
    | none =>
      simp only [hl]
      exact ih.cons i
    | some inst =>
      by_cases hpos : 0 < inst - now
      · simp only [hl, if_pos hpos, keysOf_cons]
        exact ih.cons₂ i
      · simp only [hl, if_neg hpos]
        exact ih.cons i

theorem nodupKeys_validTTLsOf {db : DB} {now : Int} (hnd : NodupKeys db.records) :
    NodupKeys (validTTLsOf db now) :=
  (keysOf_validTTLsOf_sublist db now).nodup (nodupKeys_validRecsOf hnd)

theorem validTTLsOf_bounds {db : DB} {now : Int} (hb : Bounded db now) :
    ∀ q ∈ validTTLsOf db now, 1 ≤ q.2 ∧ q.2 ≤ 2147483647 := by
  intro q hq
  obtain ⟨_, inst, hl, hpos, hval⟩ := mem_validTTLsOf hq
  have hle : inst - now ≤ 2147483647 := hb.2.2 _ (mem_of_lookupA_some hl)
  rw [hval, intCast_eq_self (by omega) hle]
  omega

theorem flatMap_keys_serialize {full : RecMap} {l : RecMap}
    (h : ∀ p ∈ l, lookupA full p.1 = some p.2) :
    ((keysOf l).flatMap fun rid =>
      rid :: natToDec ((lookupA full rid).getD []).length
        :: serializeFM ((lookupA full rid).getD [])) = serializeRecs l := by
  induction l with
  | nil => rfl
  | cons p t ih =>
    have hp := h p (List.mem_cons_self p t)
    rw [keysOf_cons, List.flatMap_cons, hp]
    simp only [Option.getD_some]
    rw [ih fun q hq => h q (List.mem_cons_of_mem p hq)]
    simp [serializeRecs]

theorem backupLines_eq (db : DB) (now : Int) (hnd : NodupKeys db.records) :
    backupLines db now =
      natToDec (validRecsOf db now).length :: serializeRecs (validRecsOf db now)
        ++ natToDec (validTTLsOf db now).length
          :: serializeTTLs (validTTLsOf db now) := by
  have h1 : ∀ p ∈ validRecsOf db now, lookupA db.records p.1 = some p.2 :=
    fun p hp => lookupA_of_mem hnd (mem_validRecsOf hp).1
  simp only [backupLines]
  rw [flatMap_keys_serialize h1,
    show (keysOf (validRecsOf db now)).length = (validRecsOf db now).length from
      List.length_map _ _]
  rfl

theorem intToDec_no_newline (i : Int) : '\n' ∉ (intToDec i).data := by
  rw [intToDec]
  by_cases h : i < 0
  · rw [if_pos h]
    intro hm
    rcases List.mem_cons.1 hm with h1 | h1
    · exact absurd h1 (by decide)
    · exact natDigits_no_newline _ h1
  · rw [if_neg h]
    exact natDigits_no_newline _

theorem backupLines_no_newline (db : DB) (now : Int) (hnd : NodupKeys db.records)
    (hnl : NoNewlines db) : ∀ s ∈ backupLines db now, '\n' ∉ s.data := by
  rw [backupLines_eq db now hnd]
  intro s hs
  rcases List.mem_cons.1 hs with rfl | hs
  · exact natDigits_no_newline _
  rcases List.mem_append.1 hs with hs | hs
  · -- an element of the record section
    obtain ⟨p, hp, hsp⟩ := List.mem_flatMap.1 hs
    have hpdb := (mem_validRecsOf hp).1
    have hnlp := hnl p hpdb
    rcases List.mem_cons.1 hsp with rfl | hsp
    · exact hnlp.1
    rcases List.mem_cons.1 hsp with rfl | hsp
    · exact natDigits_no_newline _
    · obtain ⟨q, hq, hsq⟩ := List.mem_flatMap.1 hsp
      rcases List.mem_cons.1 hsq with rfl | hsq
      · exact (hnlp.2 q hq).1
      rcases List.mem_cons.1 hsq with rfl | hsq
      · exact (hnlp.2 q hq).2
      · cases hsq
  rcases List.mem_cons.1 hs with rfl | hs
  · exact natDigits_no_newline _
  · -- an element of the TTL section
    obtain ⟨q, hq, hsq⟩ := List.mem_flatMap.1 hs
    have hq1 := (mem_validTTLsOf hq).1
    obtain ⟨p, hp, hpq⟩ := List.mem_map.1 hq1
    have hpdb := (mem_validRecsOf hp).1
    rcases List.mem_cons.1 hsq with rfl | hsq
    · exact hpq ▸ (hnl p hpdb).1
    rcases List.mem_cons.1 hsq with rfl | hsq
    · exact intToDec_no_newline _
    · cases hsq

/-- Restoring a backup taken at the same instant succeeds and produces
    exactly `restoredDB`. -/
theorem restore_backup_eq (db : DB) (now : Int) (hwf : WF db)
    (hnl : NoNewlines db) (hb : Bounded db now) :
    restore db (backup db now) now = (true, restoredDB db now) := by
  obtain ⟨hndr, hfm, hndt⟩ := hwf
  have hlines : strLines (backup db now) = backupLines db now := by
    rw [backup]
    exact strLines_flatten _ (backupLines_no_newline db now hndr hnl)
  have hbr : (validRecsOf db now).length ≤ 2147483647 :=
    le_trans (List.length_filter_le _ _) hb.1
  have hbt : (validTTLsOf db now).length ≤ 2147483647 := by
    have h1 : (validTTLsOf db now).length ≤ (keysOf (validRecsOf db now)).length :=
      List.length_filterMap_le _ _
    have h2 : (keysOf (validRecsOf db now)).length = (validRecsOf db now).length :=
      List.length_map _ _
    omega
  have hstep1 := parseRecords_serialize (validRecsOf db now)
    (natToDec (validTTLsOf db now).length :: serializeTTLs (validTTLsOf db now)) []
    (by rw [keysOf_nil, List.nil_append]; exact nodupKeys_validRecsOf hndr)
    (fun p hp => hfm p (mem_validRecsOf hp).1)
    (fun p hp => hb.2.1 p (mem_validRecsOf hp).1)
  have hstep2 := parseTTLs_serialize now (validTTLsOf db now) [] []
    (by rw [keysOf_nil, List.nil_append]; exact nodupKeys_validTTLsOf hndr)
    (fun q hq => by
      have hq2 := validTTLsOf_bounds hb q hq
      exact ⟨by omega, hq2.2⟩)
  rw [List.nil_append] at hstep1
  rw [List.nil_append, List.append_nil] at hstep2
  simp only [restore, hlines, backupLines_eq db now hndr, List.cons_append,
    restoreCore, stoi_natToDec hbr, stoi_natToDec hbt, Int.toNat_natCast,
    hstep1, hstep2]
  rfl

theorem restoredDB_not_expired (db : DB) (now : Int) (hb : Bounded db now)
    (rid : String) : isRecordExpired (restoredDB db now) rid now = false := by
  rw [isRecordExpired, restoredDB]
  have hmap : lookupA ((validTTLsOf db now).map fun p => (p.1, now + p.2)) rid
      = (lookupA (validTTLsOf db now) rid).map fun r => now + r :=
    lookupA_mapVal (fun _ r => now + r) _ _
  cases hvt : lookupA (validTTLsOf db now) rid with
  | none => rw [hmap, hvt]; rfl
  | some r =>
    rw [hmap, hvt]
    have hb1 := (validTTLsOf_bounds hb _ (mem_of_lookupA_some hvt)).1
    simp only [Option.map_some', decide_eq_false_iff_not]
    omega

theorem hasRecord_restoredDB (db : DB) (now : Int) (rid : String)
    (hndr : NodupKeys db.records) (hb : Bounded db now) :
    hasRecord (restoredDB db now) rid now = hasRecord db rid now := by
  rw [hasRecord, hasRecord,
    if_neg (by rw [restoredDB_not_expired db now hb rid]; simp)]
  have hrec : (restoredDB db now).records = validRecsOf db now := rfl
  rw [hrec, lookupA_validRecsOf db now rid hndr]
  by_cases he : isRecordExpired db rid now
  · cases hr : lookupA db.records rid <;> simp [he, hr]
  · cases hr : lookupA db.records rid <;> simp [he, hr]

theorem get_restoredDB (db : DB) (now : Int) (rid f : String)
    (hndr : NodupKeys db.records) (hb : Bounded db now) :
    get (restoredDB db now) rid f now = get db rid f now := by
  rw [get, get, if_neg (by rw [restoredDB_not_expired db now hb rid]; simp)]
  have hrec : (restoredDB db now).records = validRecsOf db now := rfl
  rw [hrec, lookupA_validRecsOf db now rid hndr]
  by_cases he : isRecordExpired db rid now
  · cases hr : lookupA db.records rid <;> simp [he, hr]
  · cases hr : lookupA db.records rid <;> simp [he, hr]

theorem getFields_restoredDB (db : DB) (now : Int) (rid : String)
    (hndr : NodupKeys db.records) (hb : Bounded db now) :
    getFields (restoredDB db now) rid now = getFields db rid now := by
  rw [getFields, getFields,
    if_neg (by rw [restoredDB_not_expired db now hb rid]; simp)]
  have hrec : (restoredDB db now).records = validRecsOf db now := rfl
  rw [hrec, lookupA_validRecsOf db now rid hndr]
  by_cases he : isRecordExpired db rid now
  · cases hr : lookupA db.records rid <;> simp [he, hr]
  · cases hr : lookupA db.records rid <;> simp [he, hr]

theorem getAllRecordIds_restoredDB (db : DB) (now : Int) (hb : Bounded db now) :
    getAllRecordIds (restoredDB db now) now = getAllRecordIds db now := by
  have h1 : getAllRecordIds db now = sortStrings (keysOf (validRecsOf db now)) := rfl
  have h2 : getAllRecordIds (restoredDB db now) now
      = sortStrings (keysOf ((validRecsOf db now).filter
          fun p => !(isRecordExpired (restoredDB db now) p.1 now))) := rfl
  rw [h1, h2, List.filter_eq_self.2]
  intro p _
  rw [restoredDB_not_expired db now hb p.1]
  rfl

/-! ## Claim C1: the snapshot round-trip law -/

/-- C1 (amended): for a well-formed store none of whose record ids, field
    names or values contains a newline character — and whose table sizes and
    remaining TTL seconds fit in a C++ `int` — `restore(backup())` succeeds
    and yields a store observationally equal to the original under `get`,
    `getFields`, `hasRecord` and `getAllRecordIds`; the no-expiry window is
    modelled by backup and restore sharing the clock instant `now`.  The
    unamended claim (arbitrary characters) is refuted by
    `c1_roundtrip_counterexample`. -/
theorem c1_roundtrip_newline_free (db : DB) (now : Int) (hwf : WF db)
    (hnl : NoNewlines db) (hb : Bounded db now) :
    (restore db (backup db now) now).1 = true ∧
      ObsEq db (restore db (backup db now) now).2 now := by
  rw [restore_backup_eq db now hwf hnl hb]
  refine ⟨rfl, ?_, ?_, ?_, ?_⟩
  · exact fun rid f => (get_restoredDB db now rid f hwf.1 hb).symm
  · exact fun rid => (getFields_restoredDB db now rid hwf.1 hb).symm
  · exact fun rid => (hasRecord_restoredDB db now rid hwf.1 hb).symm
  · exact (getAllRecordIds_restoredDB db now hb).symm

/-- C1 as stated is false: with a value containing a newline, the backup
    lines split apart, restore hits a `stoi` failure and returns an empty
    store, so `hasRecord "a"` flips from `true` to `false`. -/
theorem c1_roundtrip_counterexample :
    hasRecord c1xdb "a" 0 = true ∧
      (restore c1xdb (backup c1xdb 0) 0).1 = false ∧
      hasRecord (restore c1xdb (backup c1xdb 0) 0).2 "a" 0 = false := by
  decide

/-- Witness: the hypotheses of `c1_roundtrip_newline_free` hold at `c1wdb`
    and instant `0`, and the round-trip law follows there. -/
theorem c1_roundtrip_newline_free_witness :
    WF c1wdb ∧ NoNewlines c1wdb ∧ Bounded c1wdb 0 ∧
      ((restore c1wdb (backup c1wdb 0) 0).1 = true ∧
        ObsEq c1wdb (restore c1wdb (backup c1wdb 0) 0).2 0) :=
  ⟨by decide, by decide, by decide,
    c1_roundtrip_newline_free c1wdb 0 (by decide) (by decide) (by decide)⟩

/-! ## Claim C2: all-or-nothing restoration -/

/-- C2: the claim is right and the code is wrong.  On the truncated input
    `"1\nid\n1\nf\nv"` (ends before the TTL count line), `restore` returns
    `false` yet leaves the already-parsed record in the store: the early
    `return false` taken when `std::getline` fails skips the clearing that
    the `catch` handler performs, contradicting the stated all-or-nothing
    behaviour. -/
theorem c2_truncated_restore_leaves_state :
    restore emptyDB "1\nid\n1\nf\nv" 0 = (false, ⟨[("id", [("f", "v")])], []⟩) ∧
      hasRecord (restore emptyDB "1\nid\n1\nf\nv" 0).2 "id" 0 = true ∧
      getAllRecordIds (restore emptyDB "1\nid\n1\nf\nv" 0).2 0 = ["id"] := by
  decide

/-- Membership of an id among the keys of a filtered table (distinct keys):
    there is an entry for it passing the filter. -/
theorem mem_keys_filter_iff {β : Type} (p : String × β → Bool)
    {l : List (String × β)} {a : String} (hnd : NodupKeys l) :
    a ∈ keysOf (l.filter p) ↔ ∃ b, lookupA l a = some b ∧ p (a, b) = true := by
  rw [← lookupA_isSome, lookupA_filter p hnd]
  cases h : lookupA l a with
  | none => simp
  | some b => by_cases hp : p (a, b) = true <;> simp [hp]

/-! ## Claim C3: setTTL and non-existent records -/

/-- C3 as stated is false: at instant 5 the record `"a"` is logically
    expired, so the claim demands that `setTTL` leave the store unchanged —
    but the code checks only the record table, overwrites the TTL entry and
    thereby revives the record. -/
theorem c3_setttl_counterexample :
    isRecordExpired c3db "a" 5 = true ∧
      setTTL c3db "a" 100 5 ≠ c3db ∧
      hasRecord (setTTL c3db "a" 100 5) "a" 5 = true := by
  decide

/-- C3 (amended): `setTTL` is a no-op exactly when the record table has no
    entry for the id — logical expiration is not consulted.  When the entry
    is physically present (even if expired), the TTL table entry becomes
    `now + ttlSeconds` and nothing else changes. -/
theorem c3_setttl_amended (db : DB) (rid : String) (t now : Int) :
    (lookupA db.records rid = none → setTTL db rid t now = db) ∧
      (∀ fm, lookupA db.records rid = some fm →
        (setTTL db rid t now).records = db.records ∧
        lookupA (setTTL db rid t now).ttlMap rid = some (now + t) ∧
        ∀ rid2, rid2 ≠ rid →
          lookupA (setTTL db rid t now).ttlMap rid2 = lookupA db.ttlMap rid2) := by
  constructor
  · intro h
    simp only [setTTL, h]
  · intro fm h
    simp only [setTTL, h]
    exact ⟨trivial, lookupA_insertA_self _ _ _,
      fun rid2 h2 => lookupA_insertA_ne _ (Ne.symm h2)⟩

/-- Witness: `setTTL` on an absent id leaves the empty store unchanged, and
    on the expired-but-present record of `c3db` rewrites its TTL entry. -/
theorem c3_setttl_amended_witness :
    setTTL emptyDB "zz" 7 0 = emptyDB ∧
      (setTTL c3db "a" 100 5).records = c3db.records ∧
      lookupA (setTTL c3db "a" 100 5).ttlMap "a" = some 105 := by
  refine ⟨(c3_setttl_amended emptyDB "zz" 7 0).1 (by decide), ?_, ?_⟩
  · exact ((c3_setttl_amended c3db "a" 100 5).2 [("f", "v")] (by decide)).1
  · have h := ((c3_setttl_amended c3db "a" 100 5).2 [("f", "v")] (by decide)).2.1
    simpa using h

/-! ## Claim C4: deleting the last field collapses the record -/

/-- C4: deleting the only field of a non-expired record succeeds, removes
    the record-table entry, makes `hasRecord` false and removes the TTL
    entry, as one unit. -/
theorem c4_last_field_collapse (db : DB) (rid f v : String) (now : Int)
    (hfm : lookupA db.records rid = some [(f, v)])
    (hexp : isRecordExpired db rid now = false)
    (hndr : NodupKeys db.records) (hndt : NodupKeys db.ttlMap) :
    (deleteField db rid f now).1 = true ∧
      lookupA (deleteField db rid f now).2.records rid = none ∧
      hasRecord (deleteField db rid f now).2 rid now = false ∧
      lookupA (deleteField db rid f now).2.ttlMap rid = none := by
  have hcalc : deleteField db rid f now
      = (true, ⟨eraseA db.records rid, eraseA db.ttlMap rid⟩) := by
    rw [deleteField, if_neg (by rw [hexp]; simp)]
    simp [hfm, lookupA, eraseA]
  rw [hcalc]
  refine ⟨rfl, lookupA_eraseA_self hndr, ?_, lookupA_eraseA_self hndt⟩
  have hexp2 : isRecordExpired ⟨eraseA db.records rid, eraseA db.ttlMap rid⟩ rid now
      = false := by
    rw [isRecordExpired]
    simp [lookupA_eraseA_self hndt]
  rw [hasRecord, if_neg (by rw [hexp2]; simp), lookupA_eraseA_self hndr]
  rfl

/-- Witness: at `c4db`, deleting the only field of `"a"` collapses it. -/
theorem c4_last_field_collapse_witness :
    (deleteField c4db "a" "f" 0).1 = true ∧
      lookupA (deleteField c4db "a" "f" 0).2.records "a" = none ∧
      hasRecord (deleteField c4db "a" "f" 0).2 "a" 0 = false ∧
      lookupA (deleteField c4db "a" "f" 0).2.ttlMap "a" = none :=
  c4_last_field_collapse c4db "a" "f" "v" 0 (by decide) (by decide) (by decide)
    (by decide)

/-! ## Claim C5: deleteRecord ignores expiration -/

/-- C5: `deleteRecord` reports failure exactly when the record table has no
    entry for the id; on any physically present record — expiration never
    being consulted — it succeeds and removes both the record and any TTL
    entry. -/
theorem c5_deleteRecord_spec (db : DB) (rid : String)
    (hndr : NodupKeys db.records) (hndt : NodupKeys db.ttlMap) :
    ((deleteRecord db rid).1 = false ↔ lookupA db.records rid = none) ∧
      (∀ fm, lookupA db.records rid = some fm →
        (deleteRecord db rid).1 = true ∧
        lookupA (deleteRecord db rid).2.records rid = none ∧
        lookupA (deleteRecord db rid).2.ttlMap rid = none) := by
  constructor
  · cases h : lookupA db.records rid with
    | none => simp [deleteRecord, h]
    | some fm => simp [deleteRecord, h]
  · intro fm h
    simp only [deleteRecord, h]
    exact ⟨trivial, lookupA_eraseA_self hndr, lookupA_eraseA_self hndt⟩

/-- Witness: at `c4db` (where `"a"` is present with a TTL and `"zz"` is
    absent), both branches of `c5_deleteRecord_spec` apply; note instant 100
    would make `"a"` expired, yet deletion still succeeds. -/
theorem c5_deleteRecord_spec_witness :
    ((deleteRecord c4db "zz").1 = false ↔ lookupA c4db.records "zz" = none) ∧
      ((deleteRecord c4db "a").1 = true ∧
        lookupA (deleteRecord c4db "a").2.records "a" = none ∧
        lookupA (deleteRecord c4db "a").2.ttlMap "a" = none) :=
  ⟨(c5_deleteRecord_spec c4db "zz" (by decide) (by decide)).1,
    (c5_deleteRecord_spec c4db "a" (by decide) (by decide)).2 [("f", "v")]
      (by decide)⟩

/-! ## Claim C6: exactness of the field-value filter -/

/-- C6: `getRecordsByFieldValue f v` contains an id exactly when that id has
    a (unique) record entry, the record is not logically expired, and its
    field `f` equals `v`; and the output is strictly sorted (hence without
    duplicates).  Records lacking `f` fail the lookup condition and are
    excluded. -/
theorem c6_filter_exact (db : DB) (f v : String) (now : Int)
    (hndr : NodupKeys db.records) :
    (∀ rid, rid ∈ getRecordsByFieldValue db f v now ↔
      ∃ fm, lookupA db.records rid = some fm ∧
        isRecordExpired db rid now = false ∧ lookupA fm f = some v) ∧
      List.Sorted (· < ·) (getRecordsByFieldValue db f v now) := by
  constructor
  · intro rid
    rw [getRecordsByFieldValue, sortStrings, (List.perm_insertionSort _ _).mem_iff,
      mem_keys_filter_iff _ hndr]
    constructor
    · rintro ⟨fm, hl, hp⟩
      rw [Bool.and_eq_true] at hp
      obtain ⟨hp1, hp2⟩ := hp
      refine ⟨fm, hl, by simpa using hp1, ?_⟩
      cases hf : lookupA fm f with
      | none => rw [hf] at hp2; exact absurd hp2 (by simp)
      | some w =>
        rw [hf] at hp2
        have hw : w = v := by simpa using hp2
        rw [hw]
    · rintro ⟨fm, hl, he, hf⟩
      exact ⟨fm, hl, by simp [he, hf]⟩
  · have hs := List.sorted_insertionSort ((· ≤ ·) : String → String → Prop)
      (keysOf (db.records.filter fun p =>
        !(isRecordExpired db p.1 now) &&
          (match lookupA p.2 f with
           | some w => w == v
           | none => false)))
    have hn : (getRecordsByFieldValue db f v now).Nodup := by
      rw [getRecordsByFieldValue, sortStrings]
      exact (List.perm_insertionSort _ _).nodup_iff.2 (nodupKeys_filter _ hndr)
    exact List.Sorted.lt_of_le hs hn

/-- Witness: the filter-exactness law at `c6db`. -/
theorem c6_filter_exact_witness :
    ("a" ∈ getRecordsByFieldValue c6db "k" "v" 0 ↔
      ∃ fm, lookupA c6db.records "a" = some fm ∧
        isRecordExpired c6db "a" 0 = false ∧ lookupA fm "k" = some "v") ∧
      List.Sorted (· < ·) (getRecordsByFieldValue c6db "k" "v" 0) :=
  ⟨(c6_filter_exact c6db "k" "v" 0 (by decide)).1 "a",
    (c6_filter_exact c6db "k" "v" 0 (by decide)).2⟩

/-! ## Claim C7: expiry consistency across all read operations -/

/-- C7: a record with a TTL entry whose instant is at or before `now` is
    treated as absent by every read operation: `get` yields `none`,
    `hasRecord` is `false`, `getFields` is empty, and the id appears in
    neither enumeration.  All five operations are `const` in the source and
    pure functions of the state here, so no access order can distinguish
    them. -/
theorem c7_expired_invisible (db : DB) (rid : String) (inst now : Int)
    (f v : String) (h1 : lookupA db.ttlMap rid = some inst) (h2 : inst ≤ now) :
    get db rid f now = none ∧ hasRecord db rid now = false ∧
      getFields db rid now = [] ∧ rid ∉ getAllRecordIds db now ∧
      rid ∉ getRecordsByFieldValue db f v now := by
  have he : isRecordExpired db rid now = true := by
    rw [isRecordExpired]
    simp [h1, h2]
  refine ⟨?_, ?_, ?_, ?_, ?_⟩
  · rw [get, if_pos he]
  · rw [hasRecord, if_pos he]
  · rw [getFields, if_pos he]
  · intro hm
    rw [getAllRecordIds, sortStrings, (List.perm_insertionSort _ _).mem_iff,
      keysOf] at hm
    obtain ⟨p, hp, hrid⟩ := List.mem_map.1 hm
    have hpass := (List.mem_filter.1 hp).2
    have he2 : isRecordExpired db p.1 now = true := by rw [hrid]; exact he
    rw [he2] at hpass
    exact absurd hpass (by simp)
  · intro hm
    rw [getRecordsByFieldValue, sortStrings, (List.perm_insertionSort _ _).mem_iff,
      keysOf] at hm
    obtain ⟨p, hp, hrid⟩ := List.mem_map.1 hm
    have hpass := (List.mem_filter.1 hp).2
    rw [Bool.and_eq_true] at hpass
    have hpass1 := hpass.1
    have he2 : isRecordExpired db p.1 now = true := by rw [hrid]; exact he
    rw [he2] at hpass1
    exact absurd hpass1 (by simp)

/-- Witness: the expired record of `c7db` is invisible to all five reads. -/
theorem c7_expired_invisible_witness :
    get c7db "t" "d" 10 = none ∧ hasRecord c7db "t" 10 = false ∧
      getFields c7db "t" 10 = [] ∧ "t" ∉ getAllRecordIds c7db 10 ∧
      "t" ∉ getRecordsByFieldValue c7db "d" "x" 10 :=
  c7_expired_invisible c7db "t" 3 10 "d" "x" (by decide) (by decide)

/-! ## Claim C9: the bulk expiration sweep -/

theorem length_filter_not_add {α : Type} (l : List α) (p : α → Bool) :
    (l.filter fun a => !(p a)).length + (l.filter p).length = l.length := by
  induction l with
  | nil => rfl
  | cons a t ih =>
    by_cases h : p a <;> simp only [List.filter_cons, h] <;> simp [h] <;> omega

/-- Filtering a duplicate-free table down to a duplicate-free set of its own
    keys keeps exactly one entry per listed key. -/
theorem length_filter_mem_keys {β : Type} {l : List (String × β)} {s : List String}
    (hnd : NodupKeys l) (hs : s.Nodup) (hsub : ∀ a ∈ s, a ∈ keysOf l) :
    (l.filter fun q => decide (q.1 ∈ s)).length = s.length := by
  have hperm : List.Perm (keysOf (l.filter fun q => decide (q.1 ∈ s))) s := by
    apply List.perm_of_nodup_nodup_toFinset_eq
      (nodupKeys_filter _ hnd) hs
    ext a
    simp only [List.mem_toFinset]
    rw [mem_keys_filter_iff _ hnd]
    constructor
    · rintro ⟨b, _, hp⟩
      simpa using hp
    · intro ha
      obtain ⟨b, hb⟩ := Option.isSome_iff_exists.1 (lookupA_isSome.2 (hsub a ha))
      exact ⟨b, hb, by simpa using ha⟩
  have h1 : (keysOf (l.filter fun q => decide (q.1 ∈ s))).length
      = (l.filter fun q => decide (q.1 ∈ s)).length := List.length_map _ _
  rw [← h1, hperm.length_eq]

/-- C9: `expireRecords` removes from both tables exactly the entries whose
    expiration instant is at or before `now`, leaves strictly-future entries
    untouched, and returns the number of TTL entries purged — which, when
    every expired TTL id is physically present (the store invariant), equals
    the number of record-table entries removed. -/
theorem c9_expire_exact (db : DB) (now : Int)
    (hndr : NodupKeys db.records) (hndt : NodupKeys db.ttlMap)
    (hback : ∀ rid inst, lookupA db.ttlMap rid = some inst → inst ≤ now →
      (lookupA db.records rid).isSome = true) :
    (∀ rid inst, lookupA db.ttlMap rid = some inst →
      (inst ≤ now →
        lookupA (expireRecords db now).2.ttlMap rid = none ∧
        lookupA (expireRecords db now).2.records rid = none) ∧
      (now < inst →
        lookupA (expireRecords db now).2.ttlMap rid = some inst ∧
        lookupA (expireRecords db now).2.records rid = lookupA db.records rid)) ∧
    (∀ rid, lookupA db.ttlMap rid = none →
      lookupA (expireRecords db now).2.ttlMap rid = none ∧
      lookupA (expireRecords db now).2.records rid = lookupA db.records rid) ∧
    (expireRecords db now).1
      = (db.ttlMap.filter fun q => decide (q.2 ≤ now)).length ∧
    (expireRecords db now).2.records.length + (expireRecords db now).1
      = db.records.length := by
  have hres : (expireRecords db now).2
      = ⟨(keysOf (db.ttlMap.filter fun q => decide (q.2 ≤ now))).foldl eraseA db.records,
         (keysOf (db.ttlMap.filter fun q => decide (q.2 ≤ now))).foldl eraseA db.ttlMap⟩ := by
    rw [expireRecords, foldl_cleanup_components]
  have hcnt : (expireRecords db now).1
      = (db.ttlMap.filter fun q => decide (q.2 ≤ now)).length := by
    rw [expireRecords, keysOf, List.length_map]
  have hmemIds : ∀ rid, rid ∈ keysOf (db.ttlMap.filter fun q => decide (q.2 ≤ now)) ↔
      ∃ inst, lookupA db.ttlMap rid = some inst ∧ inst ≤ now := by
    intro rid
    rw [mem_keys_filter_iff _ hndt]
    constructor
    · rintro ⟨b, hb, hp⟩
      exact ⟨b, hb, by simpa using hp⟩
    · rintro ⟨inst, hi, hle⟩
      exact ⟨inst, hi, by simpa using hle⟩
  have hrecs : (expireRecords db now).2.records
      = db.records.filter fun q =>
          !decide (q.1 ∈ keysOf (db.ttlMap.filter fun q => decide (q.2 ≤ now))) := by
    rw [hres]
    exact foldl_eraseA_eq_filter _ hndr
  have httl : (expireRecords db now).2.ttlMap
      = db.ttlMap.filter fun q =>
          !decide (q.1 ∈ keysOf (db.ttlMap.filter fun q => decide (q.2 ≤ now))) := by
    rw [hres]
    exact foldl_eraseA_eq_filter _ hndt
  refine ⟨?_, ?_, hcnt, ?_⟩
  · intro rid inst hi
    constructor
    · intro hle
      have hmem : rid ∈ keysOf (db.ttlMap.filter fun q => decide (q.2 ≤ now)) :=
        (hmemIds rid).2 ⟨inst, hi, hle⟩
      constructor
      · rw [httl, lookupA_filter _ hndt, hi]
        simp [hmem]
      · rw [hrecs, lookupA_filter _ hndr]
        cases hr : lookupA db.records rid <;> simp [hmem]
    · intro hlt
      have hmem : rid ∉ keysOf (db.ttlMap.filter fun q => decide (q.2 ≤ now)) := by
        rw [hmemIds rid]
        rintro ⟨inst2, hi2, hle2⟩
        rw [hi] at hi2
        injection hi2 with hi2
        omega
      constructor
      · rw [httl, lookupA_filter _ hndt, hi]
        simp [hmem]
      · rw [hrecs, lookupA_filter _ hndr]
        cases hr : lookupA db.records rid <;> simp [hmem]
  · intro rid hi
    have hmem : rid ∉ keysOf (db.ttlMap.filter fun q => decide (q.2 ≤ now)) := by
      rw [hmemIds rid]
      rintro ⟨inst2, hi2, _⟩
      rw [hi] at hi2
      cases hi2
    constructor
    · rw [httl, lookupA_filter _ hndt, hi]
      rfl
    · rw [hrecs, lookupA_filter _ hndr]
      cases hr : lookupA db.records rid <;> simp [hmem]
  · rw [hrecs, hcnt]
    have hsub : ∀ a ∈ keysOf (db.ttlMap.filter fun q => decide (q.2 ≤ now)),
        a ∈ keysOf db.records := by
      intro a ha
      obtain ⟨inst, hi, hle⟩ := (hmemIds a).1 ha
      exact lookupA_isSome.1 (hback a inst hi hle)
    have hlen := length_filter_mem_keys hndr
      (nodupKeys_filter (fun q => decide (q.2 ≤ now)) hndt) hsub
    have hsplit := length_filter_not_add db.records
      (fun q => decide (q.1 ∈ keysOf (db.ttlMap.filter fun q => decide (q.2 ≤ now))))
    have hkeys : (keysOf (db.ttlMap.filter fun q => decide (q.2 ≤ now))).length
        = (db.ttlMap.filter fun q => decide (q.2 ≤ now)).length :=
      List.length_map _ _
    omega

/-- Witness: the sweep at `c9db` and instant 5 purges exactly `"a"` from
    both tables, keeps `"b"`, and the count matches the records removed. -/
theorem c9_expire_exact_witness :
    (lookupA (expireRecords c9db 5).2.ttlMap "a" = none ∧
        lookupA (expireRecords c9db 5).2.records "a" = none) ∧
      (lookupA (expireRecords c9db 5).2.ttlMap "b" = some 10 ∧
        lookupA (expireRecords c9db 5).2.records "b" = lookupA c9db.records "b") ∧
      (expireRecords c9db 5).1
        = (c9db.ttlMap.filter fun q => decide (q.2 ≤ 5)).length ∧
      (expireRecords c9db 5).2.records.length + (expireRecords c9db 5).1
        = c9db.records.length := by
  have hback : ∀ rid inst, lookupA c9db.ttlMap rid = some inst → inst ≤ 5 →
      (lookupA c9db.records rid).isSome = true := by
    intro rid inst h _
    have hm := mem_of_lookupA_some h
    rcases List.mem_cons.1 hm with h1 | h1
    · injection h1 with ha hb
      subst ha
      decide
    rcases List.mem_cons.1 h1 with h1 | h1
    · injection h1 with ha hb
      subst ha
      decide
    · cases h1
  have h := c9_expire_exact c9db 5 (by decide) (by decide) hback
  exact ⟨((h.1 "a" 3 (by decide)).1 (by decide)),
    ((h.1 "b" 10 (by decide)).2 (by decide)), h.2.2.1, h.2.2.2⟩

/-! ## Claim C8: the TTL-table/record-table invariant -/

theorem storeInv_cleanup {db : DB} {now : Int} (rid : String)
    (h : StoreInv db now) : StoreInv (cleanupExpiredRecord db rid) now := by
  obtain ⟨hB, hR, hT⟩ := h
  refine ⟨?_, nodupKeys_eraseA hR, nodupKeys_eraseA hT⟩
  intro rid2 inst hl
  rw [cleanupExpiredRecord] at hl
  by_cases h2 : rid2 = rid
  · subst h2
    rw [lookupA_eraseA_self hT] at hl
    cases hl
  · rw [lookupA_eraseA_ne fun hh => h2 hh.symm] at hl
    rcases hB rid2 inst hl with hrec | hexp
    · left
      rw [cleanupExpiredRecord, lookupA_eraseA_ne fun hh => h2 hh.symm]
      exact hrec
    · right
      exact hexp

theorem storeInv_foldl_cleanup {now : Int} (ids : List String) {db : DB}
    (h : StoreInv db now) : StoreInv (ids.foldl cleanupExpiredRecord db) now := by
  induction ids generalizing db with
  | nil => exact h
  | cons i ids ih => exact ih (storeInv_cleanup i h)

theorem reachable_storeInv {db : DB} {now : Int} (h : Reachable db now) :
    StoreInv db now := by
  induction h with
  | init now =>
    refine ⟨?_, List.nodup_nil, List.nodup_nil⟩
    intro rid inst hl
    simp [emptyDB, lookupA] at hl
  | tick h1 hle ih =>
    obtain ⟨hB, hR, hT⟩ := ih
    exact ⟨fun rid inst hl => (hB rid inst hl).imp id (fun he => le_trans he hle),
      hR, hT⟩
  | opSet rid f v h ih =>
    obtain ⟨hB, hR, hT⟩ := ih
    rename_i db now
    by_cases hc : isRecordExpired db rid now
    · have hinv : StoreInv (cleanupExpiredRecord db rid) now :=
        storeInv_cleanup rid ⟨hB, hR, hT⟩
      obtain ⟨hB1, hR1, hT1⟩ := hinv
      simp only [set, if_pos hc]
      refine ⟨?_, nodupKeys_setField rid f v hR1, hT1⟩
      intro rid2 inst hl
      by_cases h2 : rid2 = rid
      · subst h2
        left
        rw [lookupA_setField_self]
        rfl
      · rw [lookupA_setField_ne f v h2]
        exact hB1 rid2 inst hl
    · simp only [set, if_neg hc]
      refine ⟨?_, nodupKeys_setField rid f v hR, hT⟩
      intro rid2 inst hl
      by_cases h2 : rid2 = rid
      · subst h2
        left
        rw [lookupA_setField_self]
        rfl
      · rw [lookupA_setField_ne f v h2]
        exact hB rid2 inst hl
  | opDeleteField rid f h ih =>
    rename_i db now
    by_cases hc : isRecordExpired db rid now
    · simp only [deleteField, if_pos hc]
      exact storeInv_cleanup rid ih
    · cases hrec : lookupA db.records rid with
      | none =>
        have hcalc : deleteField db rid f now = (false, db) := by
          rw [deleteField, if_neg hc]
          simp only [hrec]
        rw [hcalc]
        exact ih
      | some fm =>
        cases hfld : lookupA fm f with
        | none =>
          have hcalc : deleteField db rid f now = (false, db) := by
            rw [deleteField, if_neg hc]
            simp only [hrec, hfld]
          rw [hcalc]
          exact ih
        | some w =>
          by_cases hempty : eraseA fm f = []
          · have hcalc : deleteField db rid f now
                = (true, ⟨eraseA db.records rid, eraseA db.ttlMap rid⟩) := by
              rw [deleteField, if_neg hc]
              simp [hrec, hfld, hempty]
            rw [hcalc]
            exact storeInv_cleanup rid ih
          · have hcalc : deleteField db rid f now
                = (true, ⟨insertA db.records rid (eraseA fm f), db.ttlMap⟩) := by
              rw [deleteField, if_neg hc]
              simp [hrec, hfld, hempty]
            rw [hcalc]
            obtain ⟨hB, hR, hT⟩ := ih
            refine ⟨?_, nodupKeys_insertA _ hR, hT⟩
            intro rid2 inst hl
            by_cases h2 : rid2 = rid
            · subst h2
              left
              rw [lookupA_insertA_self]
              rfl
            · rw [lookupA_insertA_ne _ fun hh => h2 hh.symm]
              exact hB rid2 inst hl
  | opDeleteRecord rid h ih =>
    rename_i db now
    cases hrec : lookupA db.records rid with
    | none => simp only [deleteRecord, hrec]; exact ih
    | some fm =>
      simp only [deleteRecord, hrec]
      exact storeInv_cleanup rid ih
  | opSetTTL rid t h ih =>
    rename_i db now
    cases hrec : lookupA db.records rid with
    | none => simp only [setTTL, hrec]; exact ih
    | some fm =>
      simp only [setTTL, hrec]
      obtain ⟨hB, hR, hT⟩ := ih
      refine ⟨?_, hR, nodupKeys_insertA _ hT⟩
      intro rid2 inst hl
      by_cases h2 : rid2 = rid
      · subst h2
        left
        rw [hrec]
        rfl
      · rw [lookupA_insertA_ne _ fun hh => h2 hh.symm] at hl
        exact hB rid2 inst hl
  | opExpire h ih =>
    rename_i db now
    rw [expireRecords]
    exact storeInv_foldl_cleanup _ ih

/-- C8 (amended): in every state reachable from the empty store by any
    sequence of the mutating operations other than `restore`, every id in
    the TTL table is also in the record table unless its expiration instant
    has already passed.  The unamended claim, which also admits `restore`
    with an arbitrary input string, is refuted by `c8_counterexample`. -/
theorem c8_ttl_backed_amended (db : DB) (now : Int) (h : Reachable db now) :
    TTLBacked db now := (reachable_storeInv h).1

/-- C8 as stated is false: from the (reachable) empty store,
    `restore("0\n1\nx\n5")` succeeds and plants a TTL entry for `"x"` whose
    instant 5 has not passed, while the record table stays empty — no
    pending-lazy-cleanup exception applies. -/
theorem c8_counterexample :
    restore emptyDB "0\n1\nx\n5" 0 = (true, ⟨[], [("x", 5)]⟩) ∧
      lookupA (restore emptyDB "0\n1\nx\n5" 0).2.ttlMap "x" = some 5 ∧
      lookupA (restore emptyDB "0\n1\nx\n5" 0).2.records "x" = none ∧
      ¬(5 : Int) ≤ 0 := by
  decide

/-- Witness: the invariant holds at the store reached by
    `set("a","f","v"); setTTL("a",5)` at instant 0. -/
theorem c8_ttl_backed_amended_witness :
    TTLBacked (setTTL (set emptyDB "a" "f" "v" 0) "a" 5 0) 0 :=
  c8_ttl_backed_amended _ 0
    (Reachable.opSetTTL "a" 5 (Reachable.opSet "a" "f" "v" (Reachable.init 0)))

/-! ## Claim C10: content after the TTL section is ignored -/

theorem parseFields_drain (n : Nat) (lines ex : List String) (recs recs1 : RecMap)
    (rid : String) (rest1 : List String)
    (h : parseFields n lines recs rid = .ok (recs1, rest1)) :
    parseFields n (lines ++ ex) recs rid = .ok (recs1, rest1 ++ ex) := by
  induction n generalizing lines recs with
  | zero =>
    rw [parseFields] at h
    injection h with h
    injection h with h1 h2
    subst h1
    subst h2
    rw [parseFields]
  | succ n ih =>
    cases lines with
    | nil => rw [parseFields] at h; cases h
    | cons a rest =>
      cases rest with
      | nil => rw [parseFields] at h; cases h
      | cons b rest2 =>
        rw [parseFields] at h
        rw [List.cons_append, List.cons_append, parseFields]
        exact ih rest2 _ h

theorem parseRecords_drain (n : Nat) (lines ex : List String) (recs recs1 : RecMap)
    (rest1 : List String)
    (h : parseRecords n lines recs = .ok (recs1, rest1)) :
    parseRecords n (lines ++ ex) recs = .ok (recs1, rest1 ++ ex) := by
  induction n generalizing lines recs with
  | zero =>
    rw [parseRecords] at h
    injection h with h
    injection h with h1 h2
    subst h1
    subst h2
    rw [parseRecords]
  | succ n ih =>
    cases lines with
    | nil => rw [parseRecords] at h; cases h
    | cons a rest =>
      cases rest with
      | nil => rw [parseRecords] at h; cases h
      | cons b rest2 =>
        rw [parseRecords] at h
        rw [List.cons_append, List.cons_append, parseRecords]
        cases hstoi : stoi b with
        | none => rw [hstoi] at h; cases h
        | some fc =>
          rw [hstoi] at h
          simp only at h ⊢
          cases hpf : parseFields fc.toNat rest2 recs a with
          | ok r =>
            obtain ⟨recs2, rest3⟩ := r
            rw [hpf] at h
            rw [parseFields_drain _ _ ex _ _ _ _ hpf]
            exact ih rest3 recs2 h
          | truncated r => rw [hpf] at h; cases h
          | badNum => rw [hpf] at h; cases h

theorem parseTTLs_drain (now : Int) (n : Nat) (lines ex : List String)
    (ttl ttl1 : TTLMap) (rest1 : List String)
    (h : parseTTLs now n lines ttl = .ok (ttl1, rest1)) :
    parseTTLs now n (lines ++ ex) ttl = .ok (ttl1, rest1 ++ ex) := by
  induction n generalizing lines ttl with
  | zero =>
    rw [parseTTLs] at h
    injection h with h
    injection h with h1 h2
    subst h1
    subst h2
    rw [parseTTLs]
  | succ n ih =>
    cases lines with
    | nil => rw [parseTTLs] at h; cases h
    | cons a rest =>
      cases rest with
      | nil => rw [parseTTLs] at h; cases h
      | cons b rest2 =>
        rw [parseTTLs] at h
        rw [List.cons_append, List.cons_append, parseTTLs]
        cases hstoi : stoi b with
        | none => rw [hstoi] at h; cases h
        | some s =>
          rw [hstoi] at h
          simp only at h ⊢
          exact ih rest2 _ h

/-- A structurally complete parse consumes its lines exactly; appending
    anything afterwards leaves the parsed store unchanged, with the extra
    lines as the never-read leftover. -/
theorem restoreCore_drain (now : Int) (lines ex : List String) (st : DB)
    (h : restoreCore now lines = .ok (st, [])) :
    restoreCore now (lines ++ ex) = .ok (st, ex) := by
  cases lines with
  | nil => rw [restoreCore] at h; cases h
  | cons a rest =>
    rw [restoreCore] at h
    rw [List.cons_append, restoreCore]
    cases hstoi : stoi a with
    | none => rw [hstoi] at h; cases h
    | some recordCount =>
      rw [hstoi] at h
      simp only at h ⊢
      cases hpr : parseRecords recordCount.toNat rest [] with
      | badNum => rw [hpr] at h; cases h
      | truncated r => rw [hpr] at h; cases h
      | ok r =>
        obtain ⟨recs, rest1⟩ := r
        rw [hpr] at h
        rw [parseRecords_drain _ _ ex _ _ _ hpr]
        simp only at h ⊢
        cases rest1 with
        | nil => cases h
        | cons b rest2 =>
          rw [List.cons_append]
          simp only at h ⊢
          cases hstoi2 : stoi b with
          | none => rw [hstoi2] at h; cases h
          | some ttlCount =>
            rw [hstoi2] at h
            simp only at h ⊢
            cases hpt : parseTTLs now ttlCount.toNat rest2 [] with
            | badNum => rw [hpt] at h; cases h
            | truncated r => rw [hpt] at h; cases h
            | ok r =>
              obtain ⟨ttl, rest3⟩ := r
              rw [hpt] at h
              injection h with h
              injection h with h1 h2
              subst h1
              subst h2
              rw [parseTTLs_drain now _ _ ex _ _ _ hpt]
              simp

/-- `std::getline` splits an appended string at a line boundary. -/
theorem linesAux_append_end (cs : List Char) (ds : List Char) (acc : List Char)
    (h : cs.getLast? = some '\n') :
    linesAux (cs ++ ds) acc = linesAux cs acc ++ strLines (String.mk ds) := by
  induction cs generalizing acc with
  | nil => cases h
  | cons c cs ih =>
    cases cs with
    | nil =>
      rw [List.getLast?_singleton] at h
      injection h with h
      subst h
      rw [List.cons_append, List.nil_append, linesAux_cons, if_pos rfl,
        linesAux_cons, if_pos rfl, strLines_match]
      cases ds <;> rfl
    | cons c2 cs2 =>
      rw [List.getLast?_cons_cons] at h
      by_cases hc : c = '\n'
      · subst hc
        rw [List.cons_append, linesAux_cons, if_pos rfl, linesAux_cons, if_pos rfl]
        simp only [List.cons_append, List.isEmpty_cons, Bool.false_eq_true, if_false]
        rw [← List.cons_append, ih [] h]
      · rw [List.cons_append, linesAux_cons, if_neg hc, linesAux_cons, if_neg hc]
        exact ih _ h

/-- Splitting the lines of `s ++ t` when `s` ends at a line boundary. -/
theorem strLines_append {s t : String} (h : s.data.getLast? = some '\n') :
    strLines (s ++ t) = strLines s ++ strLines t := by
  have hne : s.data ≠ [] := by
    intro hd
    rw [hd] at h
    cases h
  have hdata : (s ++ t).data = s.data ++ t.data := String.data_append s t
  have h1 : strLines (s ++ t) = linesAux (s.data ++ t.data) [] := by
    have : strLines (s ++ t) = strLines (String.mk (s.data ++ t.data)) := by
      rw [← hdata]
    rw [this, strLines_mk_of_ne_nil (by
      intro hnil
      exact hne (List.append_eq_nil.1 hnil).1)]
  rw [h1, linesAux_append_end s.data t.data [] h, strLines_mk_of_ne_nil hne]

/-- C10: for a string `s` that is a structurally complete snapshot ending at
    a line boundary, appending any trailing string of additional lines
    leaves `restore` successful with the very same resulting store: content
    after the TTL section is never read. -/
theorem c10_trailing_ignored (now : Int) (s extra : String) (st : DB)
    (db1 db2 : DB) (hcomp : restoreCore now (strLines s) = .ok (st, []))
    (hend : s.data.getLast? = some '\n') :
    restore db1 (s ++ extra) now = (true, st) ∧ restore db2 s now = (true, st) := by
  constructor
  · rw [restore, strLines_append hend, restoreCore_drain now _ _ st hcomp]
  · rw [restore, hcomp]

/-- Witness: restoring `c10s` with trailing garbage succeeds and produces
    the same store as restoring `c10s` alone. -/
theorem c10_trailing_ignored_witness :
    restore emptyDB (c10s ++ "trailing\ngarbage") 0
        = (true, ⟨[("a", [("f", "v")])], []⟩) ∧
      restore emptyDB c10s 0 = (true, ⟨[("a", [("f", "v")])], []⟩) :=
  c10_trailing_ignored 0 c10s "trailing\ngarbage" ⟨[("a", [("f", "v")])], []⟩
    emptyDB emptyDB (by decide) (by decide)

end InMemDB
